import Mathlib

/-!
# Verification of the Gzip_decompressor repository

A shallow embedding, in Lean 4, of the Rust sources of the
`Serge-sudo/Gzip_decompressor` repository (files `bit_reader.rs`,
`tracking_writer.rs`, `huffman_coding.rs`, `deflate.rs`, `gzip.rs`,
`lib.rs`), together with theorems settling the specification claims
about the code.

Machine integers (`u8`, `u16`, `u32`, `usize`) are modelled as `Nat`
with explicit reductions modulo powers of two exactly where the Rust
code can wrap.  Rust release-mode semantics is used for shift-amount
overflow (the shift amount is taken modulo the bit width), which is
the one place the code can shift a `u16` by 16.  Fallible Rust code
(`io::Result`, `anyhow::Result`) is modelled with `Except String`.
Rust panics (`unwrap`, `assert!`) are modelled as `Except.error`
values whose message starts with the word panic, so that a panic is
distinguishable from an ordinary returned error.
-/

namespace Gzip

/-! ## Bit-level groundwork (specification side)

`bitsOfNat v n` is the list of the low `n` bits of `v`, least
significant first; `natOfBits` is its inverse.  `streamBits` expands a
byte stream into its LSB-first bit stream, which is the order in which
DEFLATE consumes bits.  These definitions belong to the specification
side of the claims (the claims speak about the first bits of the
stream, LSB-first within each byte). -/

def bitsOfNat : Nat → Nat → List Bool
  | _, 0 => []
  | v, n + 1 => (v % 2 = 1) :: bitsOfNat (v / 2) n

def natOfBits : List Bool → Nat
  | [] => 0
  | b :: t => (if b then 1 else 0) + 2 * natOfBits t

def byteBits (b : Nat) : List Bool := bitsOfNat b 8

def streamBits (s : List Nat) : List Bool := (s.map byteBits).flatten

/-! ## `bit_reader.rs`: `BitSequence`

The Rust struct stores `bits: u16` and `len: u8`.  The constructor
`BitSequence::new` masks the value to its low `len` bits when
`1 <= len <= 15`, returns the bits unchanged when `len = 0` or
`len = 16`, and is unreachable for larger lengths (modelled by
returning the arguments unchanged; no caller in the sources reaches
that branch). -/

structure BitSeq where
  bits : Nat
  len : Nat
  deriving Repr, DecidableEq

def bitSeqNew (bits len : Nat) : BitSeq :=
  if len = 0 then ⟨bits, 0⟩
  else if len ≤ 15 then ⟨bits % 2 ^ len, len⟩
  else ⟨bits, len⟩

/-- `BitSequence::concat`: `self.bits | other.bits << self.len`, computed in
`u16` arithmetic (the shifted value wraps modulo `2 ^ 16`, and in release
mode a shift amount of 16 is taken modulo 16), then renormalised through
`BitSequence::new` with the summed length.  The Rust code asserts
`self.len + other.len <= 16`; theorems about `bitSeqConcat` carry that
bound as a hypothesis. -/
def bitSeqConcat (a b : BitSeq) : BitSeq :=
  bitSeqNew (a.bits ||| (b.bits <<< (a.len % 16)) % 2 ^ 16) (a.len + b.len)

/-- The invariant claimed by the specification for `BitSequence` values:
the length fits in 16 and all bits outside the low `len` positions are
zero. -/
def BitSeqInv (s : BitSeq) : Prop := s.len ≤ 16 ∧ s.bits < 2 ^ s.len

instance (s : BitSeq) : Decidable (BitSeqInv s) := by
  unfold BitSeqInv; infer_instance

/-! ## `bit_reader.rs`: `BitReader`

The reader owns the remaining byte stream (a list of byte values) and a
residual `BitSequence`.  `readBits` is a direct transcription of
`BitReader::read_bits`:

* the initial `assert!(len <= 16)` is modelled as a panic error;
* when the residual holds at least `len` bits, the low `len` bits are
  returned (the Rust mask is the `u16` expression `(1 << len) - 1`,
  which the fast path only reaches with `len <= 15`);
* otherwise 1 or 2 bytes are fetched with `read_exact` (an error when
  the stream is shorter), assembled little-endian into a `u16`, and
  split at `vital_len`.  The expression `byte >> vital_len` is a `u16`
  shift whose amount equals 16 exactly when `len = 16` and the residual
  is empty; release-mode Rust masks the shift amount modulo the bit
  width, which the model reproduces with `vital % 16`. -/

deriving instance DecidableEq for Except

structure BRState where
  stream : List Nat
  buf : BitSeq
  deriving Repr, DecidableEq

def brNew (s : List Nat) : BRState := ⟨s, bitSeqNew 0 0⟩

def readBits (st : BRState) (n : Nat) : Except String (BitSeq × BRState) :=
  if 16 < n then .error "panic: len is bigger than 16"
  else if n ≤ st.buf.len then
    .ok (bitSeqNew (st.buf.bits &&& (2 ^ n - 1)) n,
         ⟨st.stream, ⟨st.buf.bits >>> n, st.buf.len - n⟩⟩)
  else
    let vital := n - st.buf.len
    let tsize := if 8 < vital then 2 else 1
    if st.stream.length < tsize then .error "failed to fill whole buffer"
    else
      let byte := st.stream.getD 0 0 + 256 * (if tsize = 2 then st.stream.getD 1 0 else 0)
      let rest := bitSeqNew byte vital
      let newBuf := bitSeqNew (byte >>> (vital % 16)) (8 * tsize - vital)
      .ok (bitSeqConcat st.buf rest, ⟨st.stream.drop tsize, newBuf⟩)

/-- `BitReader::borrow_reader_from_boundary`: discard the residual bits;
subsequent byte-level reads act on `stream` directly. -/
def borrowReaderFromBoundary (st : BRState) : BRState := ⟨st.stream, bitSeqNew 0 0⟩

/-- Successive `read_bits` calls, collecting the returned `BitSequence`s
(the way claims about sequences of reads quantify over the reader). -/
def readBitsList (st : BRState) : List Nat → Except String (List BitSeq × BRState)
  | [] => .ok ([], st)
  | n :: ns =>
    match readBits st n with
    | .error e => .error e
    | .ok (v, st1) =>
      match readBitsList st1 ns with
      | .error e => .error e
      | .ok (vs, st2) => .ok (v :: vs, st2)

/-- Specification side of claim C6: split a bit string into consecutive
groups of the requested lengths and read each group as an LSB-first
value. -/
def specGroups : List Bool → List Nat → List Nat
  | _, [] => []
  | bits, n :: ns => natOfBits (bits.take n) :: specGroups (bits.drop n) ns

/-- The coupling invariant between a `BitReader` state and the original
byte stream `S`: the residual buffer holds fewer than 8 normalised bits,
stream bytes are byte-sized, and the residual bits followed by the bits
of the remaining stream are exactly the bits of `S` past position `p`. -/
def Good (S : List Nat) (p : Nat) (st : BRState) : Prop :=
  st.buf.len ≤ 7 ∧
  st.buf.bits < 2 ^ st.buf.len ∧
  (∀ b ∈ st.stream, b < 256) ∧
  bitsOfNat st.buf.bits st.buf.len ++ streamBits st.stream = (streamBits S).drop p

/-! ## `tracking_writer.rs`: CRC-32 and `TrackingWriter`

The `crc` crate's `CRC_32_ISO_HDLC` algorithm: reflected polynomial
`0xEDB88320`, initial value `0xFFFFFFFF`, final xor `0xFFFFFFFF`,
processing one input byte at a time with 8 shift-xor rounds. -/

def crc32Round (c : Nat) : Nat :=
  if c % 2 = 1 then (c / 2) ^^^ 0xEDB88320 else c / 2

def crc32Rounds : Nat → Nat → Nat
  | c, 0 => c
  | c, k + 1 => crc32Rounds (crc32Round c) k

def crc32UpdateByte (crc b : Nat) : Nat := crc32Rounds (crc ^^^ b) 8

/-- `Digest::update`: fold the bytes into the running state. -/
def crc32Digest (state : Nat) (bytes : List Nat) : Nat := bytes.foldl crc32UpdateByte state

def crc32Init : Nat := 0xFFFFFFFF

/-- `Digest::finalize`. -/
def crc32Finalize (state : Nat) : Nat := state ^^^ 0xFFFFFFFF

def crc32Bytes (bytes : List Nat) : Nat := crc32Finalize (crc32Digest crc32Init bytes)

/-- `TrackingWriter`: the inner sink (modelled as an unbounded byte
vector that accepts every write in full), the 32768-byte history window,
the byte counter and the CRC-32 digest state. -/
structure TWriter where
  inner : List Nat
  history : List Nat
  byteCount : Nat
  crcState : Nat
  deriving Repr, DecidableEq

def historySize : Nat := 32768

/-- The per-byte window update from `TrackingWriter::write`: drop the
oldest byte once the window is full, then push the new byte. -/
def pushByte (h : List Nat) (b : Nat) : List Nat :=
  (if historySize ≤ h.length then h.drop 1 else h) ++ [b]

def twNew : TWriter := ⟨[], [], 0, crc32Init⟩

/-- `TrackingWriter::write` (the inner sink accepts the whole buffer). -/
def twWrite (w : TWriter) (buf : List Nat) : TWriter :=
  { inner := w.inner ++ buf
    history := buf.foldl pushByte w.history
    byteCount := w.byteCount + buf.length
    crcState := crc32Digest w.crcState buf }

/-- `TrackingWriter::flush`: resets the byte counter, the window and the
digest (the inner sink keeps what it already received). -/
def twFlush (w : TWriter) : TWriter := { w with history := [], byteCount := 0, crcState := crc32Init }

/-- `TrackingWriter::crc32`. -/
def twCrc32 (w : TWriter) : Nat := crc32Finalize w.crcState

/-- The copy loop inside `write_previous`: `len` iterations pushing
`data[ind]`, where `ind` steps forward and wraps back to `start` upon
reaching `min(data.len(), start + len) - 1` (passed here as `bound`).
List indexing uses `getD`; every index reached is in bounds whenever
`1 ≤ dist ≤ data.length` (for `dist = 0` and positive `len` the Rust
code panics with an out-of-bounds index instead). -/
def copyLoop (data : List Nat) (start bound : Nat) : Nat → Nat → List Nat
  | _, 0 => []
  | ind, k + 1 => data.getD ind 0 :: copyLoop data start bound (if ind = bound then start else ind + 1) k

/-- `TrackingWriter::write_previous`.  Note the second guard of the Rust
code is the strict `dist < HISTORY_SIZE`. -/
def writePrevious (w : TWriter) (dist len : Nat) : Except String TWriter :=
  if dist ≤ w.history.length then
    if dist < historySize then
      let start := w.history.length - dist
      let result := copyLoop w.history start (min w.history.length (start + len) - 1) start len
      .ok (twWrite w result)
    else .error "dist must be less 32768"
  else .error "dist is out of border"

/-! ## `lib.rs`: `validate_footer_data`

`MemberFooter` carries the two `u32` values read little-endian from the
8-byte trailer (so both are below `2 ^ 32`; `data_size` is the ISIZE
field, the uncompressed size modulo `2 ^ 32`). -/

structure MemberFooter where
  dataCrc32 : Nat
  dataSize : Nat
  deriving Repr, DecidableEq

/-- `validate_footer_data` from `lib.rs`.  The driver `decompress` calls
it with `initial_len` equal to the byte count right after the
per-member `flush`, which is always 0. -/
def validateFooterData (w : TWriter) (initialLen : Nat) (footer : MemberFooter) :
    Except String Unit :=
  if w.byteCount ≠ initialLen + footer.dataSize then .error "length check failed"
  else if footer.dataCrc32 ≠ twCrc32 w then .error "crc32 check failed"
  else .ok ()

/-! ## `huffman_coding.rs`: canonical Huffman codes

`from_lengths` counts the occurrences of each nonzero code length
(`bl_count`), seeds `next_code` by the RFC 1951 recurrence (computed in
`u16` arithmetic, hence the reductions modulo `2 ^ 16`), then walks the
symbols in index order, assigning to each symbol of nonzero length the
current `next_code` of its length (normalised through
`BitSequence::new`) and incrementing that counter.  The `HashMap` is
modelled as an association list with the newest insertion first, which
reproduces the overwrite-on-insert lookup behaviour. -/

def blCount (lens : List Nat) (b : Nat) : Nat := if b = 0 then 0 else lens.count b

def nextCodeInit (lens : List Nat) : Nat → Nat
  | 0 => 0
  | b + 1 => ((nextCodeInit lens b + blCount lens b) * 2) % 65536

def fromLengthsGen {τ : Type} (tryFrom : Nat → Except String τ) :
    List (Nat × Nat) → (Nat → Nat) → List (BitSeq × τ) → Except String (List (BitSeq × τ))
  | [], _, acc => .ok acc
  | (i, len) :: rest, nc, acc =>
    if 0 < len then
      match tryFrom i with
      | .error e => .error e
      | .ok t =>
        fromLengthsGen tryFrom rest
          (fun b => if b = len then (nc len + 1) % 65536 else nc b)
          ((bitSeqNew (nc len) len, t) :: acc)
    else fromLengthsGen tryFrom rest nc acc

def fromLengths {τ : Type} (tryFrom : Nat → Except String τ) (lens : List Nat) :
    Except String (List (BitSeq × τ)) :=
  fromLengthsGen tryFrom lens.enum (nextCodeInit lens) []

/-- `HuffmanCoding::decode_symbol`: the `HashMap` lookup. -/
def decodeSymbol {τ : Type} (m : List (BitSeq × τ)) (seq : BitSeq) : Option τ :=
  (m.find? (fun e => decide (e.1 = seq))).map (fun e => e.2)

/-- The loop of `HuffmanCoding::read_symbol`: read one bit at a time,
prepend it below the accumulated bits (`seq.concat(result_symbol)`, so
the first bit read lands in the most significant position of the key),
and look the accumulator up after every bit.  The Rust loop is bounded
by the available input (every `read_bits(1)` consumes at least one unit
of the measure `8·|stream| + |buffer|`); `fuel` carries that measure
explicitly. -/
def readSymbolAux {τ : Type} (m : List (BitSeq × τ)) :
    BRState → BitSeq → Nat → Except String (τ × BRState)
  | _, _, 0 => .error "couldn't read"
  | st, acc, fuel + 1 =>
    match readBits st 1 with
    | .error _ => .error "couldn't read"
    | .ok (seq, st1) =>
      let acc1 := bitSeqConcat seq acc
      match decodeSymbol m acc1 with
      | some t => .ok (t, st1)
      | none => readSymbolAux m st1 acc1 fuel

def readSymbol {τ : Type} (m : List (BitSeq × τ)) (st : BRState) : Except String (τ × BRState) :=
  readSymbolAux m st (bitSeqNew 0 0) (8 * st.stream.length + st.buf.len + 1)

/-! ### Specification side for claim C3: the canonical code of a symbol -/

/-- The RFC 1951 `next_code` seed, computed without the `u16` wrap (the
specification-side mirror of `nextCodeInit`; the two agree below length
16 for Kraft-complete length arrays). -/
def firstCode (lens : List Nat) : Nat → Nat
  | 0 => 0
  | b + 1 => (firstCode lens b + blCount lens b) * 2

/-- The canonical code value assigned to symbol `i`: the seed of its
length plus the number of earlier symbols of the same length. -/
def canonVal (lens : List Nat) (i : Nat) : Nat :=
  firstCode lens (lens.getD i 0) + (lens.take i).count (lens.getD i 0)

/-- The key under which symbol `i` is stored, paired with the symbol. -/
def canonEntry (lens : List Nat) (i : Nat) : BitSeq × Nat :=
  (⟨canonVal lens i, lens.getD i 0⟩, i)

/-- A code value of length `L`, spelled in the on-wire bit order: most
significant code bit first. -/
def msbBits (c l : Nat) : List Bool := (List.range l).map (fun j => c.testBit (l - 1 - j))

/-- Kraft's inequality holding with equality, phrased over the counts of
each code length (all lengths are at most 15). -/
def KraftEq (lens : List Nat) : Prop :=
  (Finset.range 16).sum (fun b => blCount lens b * 2 ^ (15 - b)) = 2 ^ 15

instance (lens : List Nat) : Decidable (KraftEq lens) := by
  unfold KraftEq; infer_instance

/-! ## `gzip.rs`: the member envelope parser

Byte streams are lists of byte values; reading hands back the value read
together with the remaining stream.  `String::from_utf8(..).ok()` is
modelled by a full UTF-8 validity check over the raw bytes (the parsed
name and comment are kept as byte lists). -/

def utf8Cont (c : Nat) : Bool := 0x80 ≤ c && c ≤ 0xBF

def utf8Valid : List Nat → Bool
  | [] => true
  | b :: rest =>
    if b < 0x80 then utf8Valid rest
    else if 0xC2 ≤ b && b ≤ 0xDF then
      match rest with
      | c1 :: rest1 => utf8Cont c1 && utf8Valid rest1
      | [] => false
    else if 0xE0 ≤ b && b ≤ 0xEF then
      match rest with
      | c1 :: c2 :: rest1 =>
        (if b = 0xE0 then 0xA0 ≤ c1 && c1 ≤ 0xBF
         else if b = 0xED then 0x80 ≤ c1 && c1 ≤ 0x9F
         else utf8Cont c1) && utf8Cont c2 && utf8Valid rest1
      | _ => false
    else if 0xF0 ≤ b && b ≤ 0xF4 then
      match rest with
      | c1 :: c2 :: c3 :: rest1 =>
        (if b = 0xF0 then 0x90 ≤ c1 && c1 ≤ 0xBF
         else if b = 0xF4 then 0x80 ≤ c1 && c1 ≤ 0x8F
         else utf8Cont c1) && utf8Cont c2 && utf8Cont c3 && utf8Valid rest1
      | _ => false
    else false

/-- `BufRead::read_until(0, ..)`: all bytes up to and including the
first `0x00` (or up to end of stream when there is none), plus the
remaining stream. -/
def readUntilNull (s : List Nat) : List Nat × List Nat :=
  match s.findIdx? (fun b => decide (b = 0)) with
  | some i => (s.take (i + 1), s.drop (i + 1))
  | none => (s, [])

/-- `GzipReader::read_string_until_null` (the Rust code keeps whatever
`read_until` produced, terminator included, and drops the value only
when it is not valid UTF-8). -/
def readStringUntilNull (s : List Nat) : Option (List Nat) × List Nat :=
  let r := readUntilNull s
  (if utf8Valid r.1 then some r.1 else none, r.2)

/-- `GzipReader::read_crc16`: two little-endian bytes, `unwrap`ped — a
short stream panics instead of returning an error. -/
def readCrc16 (s : List Nat) : Except String (Nat × List Nat) :=
  if s.length < 2 then .error "panic: called unwrap on an Err value"
  else .ok (s.getD 0 0 + 256 * s.getD 1 0, s.drop 2)

/-- `GzipReader::read_extra`: a 2-byte little-endian length then that
many opaque bytes.  Every failure is converted by `.ok()?` into `None`:
a short length prefix consumes nothing, and a stream shorter than the
announced length is consumed entirely, both yielding `None`. -/
def readExtra (s : List Nat) : Option (List Nat) × List Nat :=
  if s.length < 2 then (none, s)
  else
    let xlen := s.getD 0 0 + 256 * s.getD 1 0
    let rest := s.drop 2
    if rest.length < xlen then (none, [])
    else (some (rest.take xlen), rest.drop xlen)

structure MemberHeader where
  compressionMethod : Nat
  modificationTime : Nat
  extra : Option (List Nat)
  name : Option (List Nat)
  comment : Option (List Nat)
  extraFlags : Nat
  os : Nat
  hasCrc : Bool
  isText : Bool
  deriving Repr, DecidableEq

/-- `MemberHeader::flags`: rebuild the FLG byte from the parsed fields
(FTEXT bit 0, FHCRC bit 1, FEXTRA bit 2, FNAME bit 3, FCOMMENT bit 4). -/
def memberFlags (h : MemberHeader) : Nat :=
  (if h.isText then 1 else 0) + (if h.hasCrc then 2 else 0) +
  (if h.extra.isSome then 4 else 0) + (if h.name.isSome then 8 else 0) +
  (if h.comment.isSome then 16 else 0)

def le16Bytes (v : Nat) : List Nat := [v % 256, v / 256 % 256]

def le32Bytes (v : Nat) : List Nat :=
  [v % 256, v / 256 % 256, v / 65536 % 256, v / 16777216 % 256]

/-- `MemberHeader::crc16`: the low 16 bits of the CRC-32 over the
reconstructed header bytes.  Note the name and comment are hashed as
stored in the header record, with one `0x00` terminator appended by this
function. -/
def memberCrc16 (h : MemberHeader) : Nat :=
  let bytes :=
    [0x1f, 0x8b, h.compressionMethod, memberFlags h] ++ le32Bytes h.modificationTime ++
    [h.extraFlags, h.os] ++
    (match h.extra with
     | some e => le16Bytes e.length ++ e
     | none => []) ++
    (match h.name with
     | some n => n ++ [0]
     | none => []) ++
    (match h.comment with
     | some c => c ++ [0]
     | none => [])
  crc32Bytes bytes % 65536

/-- `GzipReader::read_header`: a single `read` into a 10-byte buffer (a
slice reader hands over `min 10 (length)` bytes): `None` at end of
input, an eof error on a short read, the ten header bytes otherwise. -/
def readHeader (s : List Nat) : Option (Except String (List Nat × List Nat)) :=
  if s.length = 0 then none
  else if s.length < 10 then some (.error "eof error")
  else some (.ok (s.take 10, s.drop 10))

/-- `GzipReader::parse_header`, applied to the ten header bytes and the
remaining stream. -/
def parseHeader (hdr : List Nat) (s : List Nat) : Except String (MemberHeader × List Nat) :=
  if hdr.getD 0 0 ≠ 0x1f ∨ hdr.getD 1 0 ≠ 0x8b then .error "wrong id values"
  else if hdr.getD 2 0 ≠ 8 then .error "unsupported compression method"
  else
    let flags := hdr.getD 3 0
    let er := if flags.testBit 2 then readExtra s else (none, s)
    let nr := if flags.testBit 3 then readStringUntilNull er.2 else (none, er.2)
    let cr := if flags.testBit 4 then readStringUntilNull nr.2 else (none, nr.2)
    let res : MemberHeader :=
      { compressionMethod := 8
        modificationTime := hdr.getD 4 0 + 256 * hdr.getD 5 0 + 65536 * hdr.getD 6 0
          + 16777216 * hdr.getD 7 0
        extra := er.1
        name := nr.1
        comment := cr.1
        extraFlags := hdr.getD 8 0
        os := hdr.getD 9 0
        hasCrc := flags.testBit 1
        isText := flags.testBit 0 }
    if flags.testBit 1 then
      match readCrc16 cr.2 with
      | .error e => .error e
      | .ok (crcv, s4) =>
        if crcv ≠ memberCrc16 res then .error "header crc16 check failed"
        else .ok (res, s4)
    else .ok (res, cr.2)

/-- `MemberReader::read_footer`: eight bytes, two little-endian `u32`s. -/
def readFooter (s : List Nat) : Except String (MemberFooter × List Nat) :=
  if s.length < 8 then .error "failed to fill whole buffer"
  else .ok (⟨s.getD 0 0 + 256 * s.getD 1 0 + 65536 * s.getD 2 0 + 16777216 * s.getD 3 0,
             s.getD 4 0 + 256 * s.getD 5 0 + 65536 * s.getD 6 0 + 16777216 * s.getD 7 0⟩,
            s.drop 8)

/-! ## `huffman_coding.rs`: the three token alphabets -/

inductive TreeCodeToken where
  | length (n : Nat)
  | copyPrev
  | repeatZero (base : Nat) (extraBits : Nat)
  deriving Repr, DecidableEq

/-- `TryFrom<HuffmanCodeWord> for TreeCodeToken`. -/
def treeCodeTryFrom (v : Nat) : Except String TreeCodeToken :=
  if v ≤ 15 then .ok (.length v)
  else if v = 16 then .ok .copyPrev
  else if v = 17 then .ok (.repeatZero 3 3)
  else if v = 18 then .ok (.repeatZero 11 7)
  else .error "Unknown value"

inductive LitLenToken where
  | literal (v : Nat)
  | endOfBlock
  | length (base : Nat) (extraBits : Nat)
  deriving Repr, DecidableEq

/-- `TryFrom<HuffmanCodeWord> for LitLenToken` (the leading
`assert!(value.0 <= 285)` panics on 286 and 287). -/
def litLenTryFrom (v : Nat) : Except String LitLenToken :=
  if 285 < v then .error "panic: assertion failed: value.0 <= 285"
  else if v = 256 then .ok .endOfBlock
  else if v ≤ 255 then .ok (.literal v)
  else if v ≤ 264 then .ok (.length (3 + (v - 257)) 0)
  else if v ≤ 268 then .ok (.length (11 + (v - 265) * 2) 1)
  else if v ≤ 272 then .ok (.length (19 + (v - 269) * 4) 2)
  else if v ≤ 276 then .ok (.length (35 + (v - 273) * 8) 3)
  else if v ≤ 280 then .ok (.length (67 + (v - 277) * 16) 4)
  else if v ≤ 284 then .ok (.length (131 + (v - 281) * 32) 5)
  else .ok (.length 258 0)

structure DistanceToken where
  base : Nat
  extraBits : Nat
  deriving Repr, DecidableEq

def distanceTable : List (Nat × Nat) :=
  [(1, 0), (2, 0), (3, 0), (4, 0), (5, 1), (7, 1), (9, 2), (13, 2), (17, 3), (25, 3),
   (33, 4), (49, 4), (65, 5), (97, 5), (129, 6), (193, 6), (257, 7), (385, 7),
   (513, 8), (769, 8), (1025, 9), (1537, 9), (2049, 10), (3073, 10), (4097, 11),
   (6145, 11), (8193, 12), (12289, 12), (16385, 13), (24577, 13)]

/-- `TryFrom<HuffmanCodeWord> for DistanceToken`. -/
def distanceTryFrom (v : Nat) : Except String DistanceToken :=
  match distanceTable[v]? with
  | some p => .ok ⟨p.1, p.2⟩
  | none => .error "wrong code"

/-! ## `huffman_coding.rs`: `decode_litlen_distance_trees`

The two target arrays are Rust `Vec`s created with `with_capacity` and
filled by a `while length_vec.len() < length_vec.capacity()` loop, so
the capacity is part of the model.  Growth follows `RawVec`'s amortized
rule for 1-byte elements: when a reservation exceeds the capacity, the
new capacity is `max (2 * cap) required` (and at least 8). -/

structure RVec where
  data : List Nat
  cap : Nat
  deriving Repr, DecidableEq

def rvReserve (v : RVec) (required : Nat) : RVec :=
  if required ≤ v.cap then v
  else { v with cap := max (max (v.cap * 2) required) 8 }

def rvExtend (v : RVec) (items : List Nat) : RVec :=
  let r := rvReserve v (v.data.length + items.length)
  { r with data := r.data ++ items }

def clPermutation : List Nat :=
  [16, 17, 18, 0, 8, 7, 9, 6, 10, 5, 11, 4, 12, 3, 13, 2, 14, 1, 15]

/-- The HCLEN loop: assign 3-bit lengths to the code-length symbols in
the fixed permutation order, stopping after `limit` entries. -/
def clLoop (limit : Nat) : List (Nat × Nat) → List Nat → BRState →
    Except String (List Nat × BRState)
  | [], cl, st => .ok (cl, st)
  | (num, val) :: rest, cl, st =>
    if limit ≤ num then .ok (cl, st)
    else
      match readBits st 3 with
      | .error e => .error e
      | .ok (b, st1) => clLoop limit rest (cl.set val b.bits) st1

/-- The `while length_vec.len() < length_vec.capacity()` fill loop of
`decode_litlen_distance_trees` for one target vector.  Each iteration
consumes at least one bit, so the caller passes the total remaining bit
count as fuel. -/
def fillVec (enc : List (BitSeq × TreeCodeToken)) :
    Nat → RVec → BRState → Except String (RVec × BRState)
  | 0, _, _ => .error "out of fuel"
  | fuel + 1, v, st =>
    if v.data.length < v.cap then
      match readSymbol enc st with
      | .error e => .error e
      | .ok (tok, st1) =>
        match tok with
        | .length l => fillVec enc fuel (rvExtend v [l]) st1
        | .copyPrev =>
          match readBits st1 2 with
          | .error e => .error e
          | .ok (b, st2) =>
            let lastLen := v.data.getLast?.getD 0
            fillVec enc fuel (rvExtend v (List.replicate (b.bits + 3) lastLen)) st2
        | .repeatZero base extra =>
          match readBits st1 extra with
          | .error e => .error e
          | .ok (b, st2) =>
            fillVec enc fuel (rvExtend v (List.replicate (b.bits + base) 0)) st2
    else .ok (v, st)

/-- The length-decoding phase of `decode_litlen_distance_trees`: read
HLIT, HDIST, HCLEN, the code-length code, then fill the literal/length
and distance arrays one after the other. -/
def decodeTokenLengths (st : BRState) : Except String (List Nat × List Nat × BRState) :=
  match readBits st 5 with
  | .error e => .error e
  | .ok (hlit, st1) =>
    match readBits st1 5 with
    | .error e => .error e
    | .ok (hdist, st2) =>
      match readBits st2 4 with
      | .error e => .error e
      | .ok (hclen, st3) =>
        match clLoop (hclen.bits + 4) clPermutation.enum (List.replicate 19 0) st3 with
        | .error e => .error e
        | .ok (cl, st4) =>
          match fromLengths treeCodeTryFrom cl with
          | .error e => .error e
          | .ok enc =>
            match fillVec enc (8 * st4.stream.length + st4.buf.len + 1)
                ⟨[], hlit.bits + 257⟩ st4 with
            | .error e => .error e
            | .ok (v1, st5) =>
              match fillVec enc (8 * st5.stream.length + st5.buf.len + 1)
                  ⟨[], hdist.bits + 1⟩ st5 with
              | .error e => .error e
              | .ok (v2, st6) => .ok (v1.data, v2.data, st6)

/-- `decode_litlen_distance_trees`: build the two Huffman codes from the
decoded length arrays. -/
def decodeLitlenDistanceTrees (st : BRState) :
    Except String (List (BitSeq × LitLenToken) × List (BitSeq × DistanceToken) × BRState) :=
  match decodeTokenLengths st with
  | .error e => .error e
  | .ok (l1, l2, st1) =>
    match fromLengths litLenTryFrom l1 with
    | .error e => .error e
    | .ok litlen =>
      match fromLengths distanceTryFrom l2 with
      | .error e => .error e
      | .ok dist => .ok (litlen, dist, st1)

/-! ## `deflate.rs` and `lib.rs`: block decoding and the driver

The unbounded Rust loops (blocks per member, symbols per block, members
per stream) terminate because every iteration consumes input; the models
carry that measure as explicit fuel (bits remaining for bit-level loops,
bytes remaining for the member loop), which the concrete evaluations
never exhaust. -/

/-- `DeflateReader::next_block`: BFINAL and BTYPE, with read errors
swallowed into `None` by `.ok()?`. -/
def nextBlock (st : BRState) : Option ((Bool × Nat) × BRState) :=
  match readBits st 1 with
  | .error _ => none
  | .ok (b1, st1) =>
    match readBits st1 2 with
    | .error _ => none
    | .ok (b2, st2) => some ((b1.bits = 1, b2.bits), st2)

/-- `process_uncompressed_block`: recover the byte boundary, read LEN
and NLEN (little-endian `u16`s), require `NLEN = !LEN`, then copy LEN
literal bytes to the writer. -/
def processUncompressedBlock (st : BRState) (w : TWriter) :
    Except String (BRState × TWriter) :=
  let s := (borrowReaderFromBoundary st).stream
  if s.length < 2 then .error "failed to fill whole buffer"
  else
    let len := s.getD 0 0 + 256 * s.getD 1 0
    let s1 := s.drop 2
    if s1.length < 2 then .error "failed to fill whole buffer"
    else
      let nlen := s1.getD 0 0 + 256 * s1.getD 1 0
      let s2 := s1.drop 2
      if len ≠ 65535 - nlen then .error "nlen check failed"
      else if s2.length < len then .error "failed to fill whole buffer"
      else .ok (⟨s2.drop len, bitSeqNew 0 0⟩, twWrite w (s2.take len))

/-- The symbol loop of `process_dynamic_tree_block`.  Note the Rust
`while let Ok(token) = lit_length.read_symbol(rdr)` swallows a
`read_symbol` failure: the loop simply ends and the block is reported
as successfully processed. -/
def dynamicLoop (litlen : List (BitSeq × LitLenToken)) (dist : List (BitSeq × DistanceToken)) :
    Nat → BRState → TWriter → Except String (BRState × TWriter)
  | 0, _, _ => .error "out of fuel"
  | fuel + 1, st, w =>
    match readSymbol litlen st with
    | .error _ => .ok (st, w)
    | .ok (tok, st1) =>
      match tok with
      | .literal v => dynamicLoop litlen dist fuel st1 (twWrite w [v])
      | .endOfBlock => .ok (st1, w)
      | .length base extraBits =>
        match readBits st1 extraBits with
        | .error e => .error e
        | .ok (b, st2) =>
          let size := base + b.bits
          match readSymbol dist st2 with
          | .error e => .error e
          | .ok (dtok, st3) =>
            match readBits st3 dtok.extraBits with
            | .error e => .error e
            | .ok (db, st4) =>
              let distance := dtok.base + db.bits
              match writePrevious w distance size with
              | .error e => .error e
              | .ok w1 => dynamicLoop litlen dist fuel st4 w1

/-- `process_dynamic_tree_block`. -/
def processDynamicTreeBlock (st : BRState) (w : TWriter) :
    Except String (BRState × TWriter) :=
  match decodeLitlenDistanceTrees st with
  | .error e => .error e
  | .ok (litlen, dist, st1) =>
    dynamicLoop litlen dist (8 * st1.stream.length + st1.buf.len + 1) st1 w

/-- `process_blocks`: decode blocks until a BFINAL block (or until
`next_block` hits end of input, which the Rust code treats as normal
termination). -/
def processBlocks : Nat → BRState → TWriter → Except String (BRState × TWriter)
  | 0, _, _ => .error "out of fuel"
  | fuel + 1, st, w =>
    match nextBlock st with
    | none => .ok (st, w)
    | some ((isFinal, btype), st1) =>
      let step : Except String (BRState × TWriter) :=
        if btype = 0 then processUncompressedBlock st1 w
        else if btype = 2 then processDynamicTreeBlock st1 w
        else .error "unsupported block type"
      match step with
      | .error e => .error e
      | .ok (st2, w2) =>
        if isFinal then .ok (st2, w2)
        else processBlocks fuel st2 w2

/-- The member loop of `decompress`: parse a header, reset the tracking
writer, decode the blocks, then read and validate the footer. -/
def decompressLoop : Nat → List Nat → TWriter → Except String TWriter
  | 0, _, _ => .error "out of fuel"
  | fuel + 1, s, w =>
    match readHeader s with
    | none => .ok w
    | some (.error e) => .error e
    | some (.ok (hdr, s1)) =>
      match parseHeader hdr s1 with
      | .error e => .error e
      | .ok (_, s2) =>
        let w1 := twFlush w
        match processBlocks (8 * s2.length + 1) (brNew s2) w1 with
        | .error e => .error e
        | .ok (st3, w2) =>
          match readFooter st3.stream with
          | .error e => .error e
          | .ok (footer, s4) =>
            match validateFooterData w2 0 footer with
            | .error e => .error e
            | .ok _ => decompressLoop fuel s4 w2

/-- `decompress`: run the member loop over the whole input and return
the bytes delivered to the output sink. -/
def decompress (input : List Nat) : Except String (List Nat) :=
  match decompressLoop (input.length + 1) input twNew with
  | .error e => .error e
  | .ok w => .ok w.inner

/-! ## Concrete inputs for the claims about the driver and the parsers -/

/-- Pack an LSB-first bit string into bytes (final partial byte padded
with zero bits). -/
def packBits (bits : List Bool) : List Nat :=
  (List.range ((bits.length + 7) / 8)).map (fun k => natOfBits ((bits.drop (8 * k)).take 8))

/-- A dynamic-Huffman block whose code-length code assigns 1-bit codes
to symbols 0 and 16, and whose first code-length symbol is 16
(copy-previous) although no length has been decoded yet; the remaining
symbols fill the literal/length array with repeats (3 + 6·41 + 4·2 =
257) and the single distance length with symbol 0. -/
def c4Bits : List Bool :=
  List.replicate 14 false ++
  ([true, false, false] ++ [false, false, false] ++ [false, false, false] ++ [true, false, false]) ++
  [true, false, false] ++
  (List.replicate 41 [true, true, true]).flatten ++
  [true, true, false] ++ [true, true, false] ++
  [false]

def c4Input : List Nat := packBits c4Bits

/-- A well-formed gzip member (stored block, plaintext `hi`, correct
CRC-32 and ISIZE) with no optional header fields. -/
def memberPlain : List Nat :=
  [31, 139, 8, 0, 0, 0, 0, 0, 0, 3, 1, 2, 0, 253, 255, 104, 105, 172, 42, 147, 216, 2, 0, 0, 0]

/-- The same member with FNAME (name `a`) and FHCRC set; the stored
CRC-16 is the correct producer value, the low 16 bits of the CRC-32
over the header bytes `1f 8b 08 0a 00 00 00 00 00 03 61 00`. -/
def memberWithHeaderCrc : List Nat :=
  [31, 139, 8, 10, 0, 0, 0, 0, 0, 3, 97, 0, 236, 40,
   1, 2, 0, 253, 255, 104, 105, 172, 42, 147, 216, 2, 0, 0, 0]

/-! ## Theorems -/

theorem bitsOfNat_length (v n : Nat) : (bitsOfNat v n).length = n := by
  induction n generalizing v with
  | zero => rfl
  | succ n ih => simp [bitsOfNat, ih]

theorem natOfBits_bitsOfNat (v n : Nat) : natOfBits (bitsOfNat v n) = v % 2 ^ n := by
  induction n generalizing v with
  | zero => simp [bitsOfNat, natOfBits, Nat.mod_one]
  | succ n ih =>
    have hp : 0 < 2 ^ n := Nat.pos_pow_of_pos n (by norm_num)
    have h4 : 2 ^ (n + 1) = 2 * 2 ^ n := by ring
    have key : v % 2 ^ (n + 1) = 2 * (v / 2 % 2 ^ n) + v % 2 := by
      have hlt : 2 * (v / 2 % 2 ^ n) + v % 2 < 2 ^ (n + 1) := by
        have h1 := Nat.mod_lt (v / 2) hp
        have h2 := Nat.mod_lt v (show 0 < 2 by norm_num)
        omega
      calc v % 2 ^ (n + 1) = (2 * (v / 2) + v % 2) % 2 ^ (n + 1) := by rw [Nat.div_add_mod]
        _ = (2 * (v / 2) % 2 ^ (n + 1) + v % 2 % 2 ^ (n + 1)) % 2 ^ (n + 1) := Nat.add_mod _ _ _
        _ = (2 * (v / 2 % 2 ^ n) + v % 2) % 2 ^ (n + 1) := by
              rw [h4, Nat.mul_mod_mul_left, Nat.mod_eq_of_lt (show v % 2 < 2 * 2 ^ n by omega)]
        _ = 2 * (v / 2 % 2 ^ n) + v % 2 := Nat.mod_eq_of_lt hlt
    simp only [bitsOfNat, natOfBits, ih, key]
    by_cases hb : v % 2 = 1 <;> simp [hb] <;> omega

/-! ### Arithmetic facts about the bitwise operations used by the model -/

theorem and_two_pow_sub_one (a n : Nat) : a &&& (2 ^ n - 1) = a % 2 ^ n := by
  apply Nat.eq_of_testBit_eq
  intro i
  simp [Nat.testBit_and, Nat.testBit_two_pow_sub_one, Nat.testBit_mod_two_pow, Bool.and_comm]

theorem lor_shiftLeft_eq_add {a k : Nat} (b : Nat) (h : a < 2 ^ k) :
    a ||| (b <<< k) = a + 2 ^ k * b := by
  apply Nat.eq_of_testBit_eq
  intro i
  rw [Nat.testBit_or, Nat.testBit_shiftLeft,
    show a + 2 ^ k * b = 2 ^ k * b + a by ring, Nat.testBit_mul_pow_two_add b h i]
  by_cases hik : i < k
  · simp [hik, Nat.not_le_of_lt hik]
  · have ha : a.testBit i = false :=
      Nat.testBit_lt_two_pow (Nat.lt_of_lt_of_le h (Nat.pow_le_pow_right (by norm_num) (by omega)))
    simp [hik, ha, Nat.le_of_not_lt hik]

theorem bitsOfNat_split (k m v : Nat) :
    bitsOfNat v (k + m) = bitsOfNat (v % 2 ^ k) k ++ bitsOfNat (v / 2 ^ k) m := by
  induction k generalizing v with
  | zero => simp [bitsOfNat]
  | succ k ih =>
    have e1 : v % 2 ^ (k + 1) % 2 = v % 2 := Nat.mod_mod_of_dvd v ⟨2 ^ k, by ring⟩
    have e2 : v % 2 ^ (k + 1) / 2 = v / 2 % 2 ^ k := by
      rw [show (2 : Nat) ^ (k + 1) = 2 * 2 ^ k by ring]
      exact Nat.mod_mul_right_div_self v 2 (2 ^ k)
    have e3 : v / 2 ^ (k + 1) = v / 2 / 2 ^ k := by
      rw [show (2 : Nat) ^ (k + 1) = 2 * 2 ^ k by ring, Nat.div_div_eq_div_mul]
    rw [show k + 1 + m = (k + m) + 1 by ring]
    simp only [bitsOfNat, e1, e2, e3, ih (v / 2), List.cons_append]

theorem bitsOfNat_mod_self (v n : Nat) : bitsOfNat (v % 2 ^ n) n = bitsOfNat v n := by
  have h := bitsOfNat_split n 0 v
  simpa [bitsOfNat] using h.symm

theorem bitsOfNat_add_pow_mul {v k : Nat} (w m : Nat) (h : v < 2 ^ k) :
    bitsOfNat (v + 2 ^ k * w) (k + m) = bitsOfNat v k ++ bitsOfNat w m := by
  rw [bitsOfNat_split k m]
  have e1 : (v + 2 ^ k * w) % 2 ^ k = v := by
    rw [Nat.add_mul_mod_self_left, Nat.mod_eq_of_lt h]
  have e2 : (v + 2 ^ k * w) / 2 ^ k = w := by
    rw [Nat.add_mul_div_left _ _ (Nat.pos_pow_of_pos k (by norm_num)),
      Nat.div_eq_of_lt h, Nat.zero_add]
  rw [e1, e2]

theorem bitsOfNat_append_iff {v k m : Nat} {l1 l2 : List Bool}
    (h1 : l1.length = k) :
    bitsOfNat v (k + m) = l1 ++ l2 ↔ bitsOfNat (v % 2 ^ k) k = l1 ∧ bitsOfNat (v / 2 ^ k) m = l2 := by
  rw [bitsOfNat_split k m]
  constructor
  · intro h
    have := List.append_inj h (by rw [bitsOfNat_length, h1])
    exact ⟨this.1, this.2⟩
  · rintro ⟨ha, hb⟩; rw [ha, hb]

theorem bitSeqNew_inv {bits len : Nat} (h1 : len ≤ 16) (h2 : bits < 2 ^ 16)
    (h3 : len = 0 → bits = 0) : BitSeqInv (bitSeqNew bits len) := by
  unfold bitSeqNew BitSeqInv
  split_ifs with hz hle
  · exact ⟨by simp, by have := h3 hz; simp [this]⟩
  · exact ⟨h1, Nat.mod_lt _ (Nat.pos_pow_of_pos _ (by norm_num))⟩
  · have : len = 16 := by omega
    exact ⟨h1, by rw [this]; exact h2⟩

/-- C10, counterexample.  The claim asserts that every value produced by
the constructor satisfies the masking invariant and that `new(bits, 0)`
stores zero bits; but `BitSequence::new` returns the bits unchanged when
the length argument is 0, so `new(5, 0)` stores the bits 5 and violates
the invariant that bits outside the low `len` positions are zero. -/
theorem bitSeq_inv_counterexample :
    bitSeqNew 5 0 = ⟨5, 0⟩ ∧ ¬ BitSeqInv (bitSeqNew 5 0) := by decide

/-- C10, amended.  Every `BitSequence` produced by `new(bits, len)` with
`1 ≤ len ≤ 16` (and `u16` input bits) satisfies the invariants `len ≤ 16`
and all bits outside the low `len` positions zero, and `concat` preserves
the invariants whenever its assertion `self.len + other.len ≤ 16` holds;
but `new(bits, 0)` returns the stored bits unchanged, so its result
satisfies the invariant only when the argument is itself 0. -/
theorem bitSeq_inv_amended :
    (∀ bits len : Nat, 1 ≤ len → len ≤ 16 → bits < 2 ^ 16 → BitSeqInv (bitSeqNew bits len)) ∧
    (∀ a b : BitSeq, BitSeqInv a → BitSeqInv b → a.len + b.len ≤ 16 →
      BitSeqInv (bitSeqConcat a b)) ∧
    (∀ bits : Nat, bitSeqNew bits 0 = ⟨bits, 0⟩) := by
  refine ⟨fun bits len h1 h2 h3 => bitSeqNew_inv h2 h3 (fun h0 => by omega), ?_, fun bits => rfl⟩
  intro a b ha hb hlen
  apply bitSeqNew_inv hlen
  · apply Nat.or_lt_two_pow
    · exact Nat.lt_of_lt_of_le ha.2 (Nat.pow_le_pow_right (by norm_num) ha.1)
    · exact Nat.mod_lt _ (by norm_num)
  · intro h0
    have haz : a.bits = 0 := by have := ha.2; rw [show a.len = 0 by omega] at this; omega
    have hbz : b.bits = 0 := by have := hb.2; rw [show b.len = 0 by omega] at this; omega
    simp [haz, hbz]

/-- C10, witness for the amended theorem at concrete inputs. -/
theorem bitSeq_inv_amended_witness :
    BitSeqInv (bitSeqNew 77 3) ∧ BitSeqInv (bitSeqConcat ⟨1, 1⟩ ⟨2, 2⟩) ∧
      bitSeqNew 9 0 = ⟨9, 0⟩ :=
  ⟨bitSeq_inv_amended.1 77 3 (by decide) (by decide) (by decide),
   bitSeq_inv_amended.2.1 ⟨1, 1⟩ ⟨2, 2⟩ (by decide) (by decide) (by decide),
   bitSeq_inv_amended.2.2 9⟩

/-- C6, counterexample.  The requested lengths 16 and 8 are both in
`[0, 16]` and their sum 24 equals 8 times the length of the 3-byte
stream, yet the second `read_bits` call returns 255 where the LSB-first
re-split of the first 24 bits has bytes 16..23 equal to 0: after a
16-bit read that found the residual buffer empty, `byte >> vital_len`
shifts a `u16` by 16, leaving the fetched bytes in the residual buffer
with recorded length 0, and the stale bits pollute the next read. -/
theorem read_bits_resplit_counterexample :
    (readBitsList (brNew [255, 255, 0]) [16, 8]).map (fun p => p.1.map BitSeq.bits)
        = .ok [65535, 255] ∧
    specGroups (streamBits [255, 255, 0]) [16, 8] = [65535, 0] ∧
    (readBitsList (brNew [255, 255, 0]) [16, 8]).map (fun p => p.1.map BitSeq.bits)
        ≠ .ok (specGroups (streamBits [255, 255, 0]) [16, 8]) := by decide

/-! ### Correctness infrastructure for `read_bits` -/

theorem streamBits_length (S : List Nat) : (streamBits S).length = 8 * S.length := by
  induction S with
  | nil => rfl
  | cons b t ih =>
    simp only [streamBits, List.map_cons, List.flatten_cons, List.length_append,
      List.length_cons] at *
    rw [ih, byteBits, bitsOfNat_length]
    ring

theorem natOfBits_append (l1 l2 : List Bool) :
    natOfBits (l1 ++ l2) = natOfBits l1 + 2 ^ l1.length * natOfBits l2 := by
  induction l1 with
  | nil => simp [natOfBits]
  | cons b t ih =>
    simp only [List.cons_append, natOfBits, List.append_eq, ih, List.length_cons]
    rw [pow_succ]
    ring

theorem bitsOfNat_take {k n : Nat} (v : Nat) (h : k ≤ n) :
    (bitsOfNat v n).take k = bitsOfNat (v % 2 ^ k) k := by
  rw [show n = k + (n - k) by omega, bitsOfNat_split k (n - k) v,
    List.take_append_of_le_length (by rw [bitsOfNat_length]),
    List.take_of_length_le (by rw [bitsOfNat_length])]

theorem bitsOfNat_drop {k n : Nat} (v : Nat) (h : k ≤ n) :
    (bitsOfNat v n).drop k = bitsOfNat (v / 2 ^ k) (n - k) := by
  rw [show n = k + (n - k) by omega, bitsOfNat_split k (n - k) v,
    List.drop_append_of_le_length (by rw [bitsOfNat_length]),
    List.drop_of_length_le (by rw [bitsOfNat_length])]
  simp

theorem good_init {S : List Nat} (hS : ∀ b ∈ S, b < 256) : Good S 0 (brNew S) :=
  ⟨by simp [brNew, bitSeqNew], by simp [brNew, bitSeqNew], hS, by simp [brNew, bitSeqNew, bitsOfNat]⟩

theorem good_length {S : List Nat} {p : Nat} {st : BRState} (hg : Good S p st) :
    st.buf.len + 8 * st.stream.length = 8 * S.length - p := by
  have h := congrArg List.length hg.2.2.2
  simp only [List.length_append, bitsOfNat_length, streamBits_length, List.length_drop] at h
  omega

theorem bitSeqNew_of_lt {a n : Nat} (h15 : n ≤ 15) (ha : a < 2 ^ n) : bitSeqNew a n = ⟨a, n⟩ := by
  unfold bitSeqNew
  split_ifs with hz
  · rw [hz]
  · rw [Nat.mod_eq_of_lt ha]

theorem bitSeqConcat_eval {a : BitSeq} {x v : Nat} (ha : a.bits < 2 ^ a.len) (h7 : a.len ≤ 7)
    (hsum15 : a.len + v ≤ 15) (hx : x < 2 ^ v) :
    bitSeqConcat a (bitSeqNew x v) = ⟨a.bits + 2 ^ a.len * x, a.len + v⟩ := by
  rw [bitSeqNew_of_lt (by omega) hx]
  unfold bitSeqConcat
  have hpv : 0 < 2 ^ v := Nat.pos_pow_of_pos v (by norm_num)
  have hres : a.bits + 2 ^ a.len * x < 2 ^ (a.len + v) := by
    have h1 := Nat.mul_le_mul_left (2 ^ a.len) (show x ≤ 2 ^ v - 1 by omega)
    have h2 : 2 ^ a.len * (2 ^ v - 1) + 2 ^ a.len = 2 ^ (a.len + v) := by
      rw [Nat.mul_sub_one, pow_add]
      have h3 : 2 ^ a.len ≤ 2 ^ a.len * 2 ^ v := Nat.le_mul_of_pos_right _ hpv
      omega
    omega
  have hmod : a.len % 16 = a.len := Nat.mod_eq_of_lt (by omega)
  rw [hmod]
  have hshl : x <<< a.len = 2 ^ a.len * x := by rw [Nat.shiftLeft_eq]; ring
  have hlt16 : x <<< a.len < 2 ^ 16 := by
    rw [hshl]
    have h4 : 2 ^ (a.len + v) ≤ 2 ^ 16 := Nat.pow_le_pow_right (by norm_num) (by omega)
    omega
  rw [Nat.mod_eq_of_lt hlt16, lor_shiftLeft_eq_add x ha, bitSeqNew_of_lt hsum15 hres]

theorem readBits_eq_fast {st : BRState} {n : Nat} (h16 : n ≤ 16) (hfast : n ≤ st.buf.len) :
    readBits st n = .ok (bitSeqNew (st.buf.bits &&& (2 ^ n - 1)) n,
      ⟨st.stream, ⟨st.buf.bits >>> n, st.buf.len - n⟩⟩) := by
  unfold readBits
  rw [if_neg (by omega), if_pos hfast]

theorem readBits_eq_one {st : BRState} {n : Nat} {b0 : Nat} {s1 : List Nat}
    (h16 : n ≤ 16) (hfast : st.buf.len < n) (hv : n - st.buf.len ≤ 8)
    (hs : st.stream = b0 :: s1) :
    readBits st n = .ok (bitSeqConcat st.buf (bitSeqNew b0 (n - st.buf.len)),
      ⟨s1, bitSeqNew (b0 >>> ((n - st.buf.len) % 16)) (8 - (n - st.buf.len))⟩) := by
  unfold readBits
  rw [if_neg (by omega), if_neg (by omega)]
  simp only [if_neg (show ¬ 8 < n - st.buf.len by omega), hs]
  rw [if_neg (by simp)]
  simp

theorem readBits_eq_two {st : BRState} {n : Nat} {b0 b1 : Nat} {s1 : List Nat}
    (h16 : n ≤ 16) (hfast : st.buf.len < n) (hv : 8 < n - st.buf.len)
    (hs : st.stream = b0 :: b1 :: s1) :
    readBits st n = .ok (bitSeqConcat st.buf (bitSeqNew (b0 + 256 * b1) (n - st.buf.len)),
      ⟨s1, bitSeqNew ((b0 + 256 * b1) >>> ((n - st.buf.len) % 16)) (16 - (n - st.buf.len))⟩) := by
  unfold readBits
  rw [if_neg (by omega), if_neg (by omega)]
  simp only [if_pos hv, hs]
  rw [if_neg (by simp)]
  simp

theorem bitSeqNew_mod {x v : Nat} (h1 : 1 ≤ v) (h15 : v ≤ 15) :
    bitSeqNew x v = ⟨x % 2 ^ v, v⟩ := by
  unfold bitSeqNew
  rw [if_neg (by omega), if_pos h15]

theorem bitSeqConcat_eval' {a : BitSeq} {x v : Nat} (ha : a.bits < 2 ^ a.len) (h7 : a.len ≤ 7)
    (hv1 : 1 ≤ v) (hsum15 : a.len + v ≤ 15) :
    bitSeqConcat a (bitSeqNew x v) = ⟨a.bits + 2 ^ a.len * (x % 2 ^ v), a.len + v⟩ := by
  have hx : x % 2 ^ v < 2 ^ v := Nat.mod_lt _ (Nat.pos_pow_of_pos _ (by norm_num))
  rw [bitSeqNew_mod hv1 (by omega), show (⟨x % 2 ^ v, v⟩ : BitSeq) = bitSeqNew (x % 2 ^ v) v from
    (bitSeqNew_of_lt (by omega) hx).symm, bitSeqConcat_eval ha h7 hsum15 hx]

/-- One `read_bits` call, on a reader coupled to stream `S` at bit
position `p`, succeeds for any request of at most 15 bits that stays
within the stream, returns exactly the next `n` bits of the LSB-first
bit expansion of `S`, and re-establishes the coupling at `p + n`. -/
theorem readBits_step {S : List Nat} {p n : Nat} {st : BRState}
    (hg : Good S p st) (hn : n ≤ 15) (hp : p + n ≤ 8 * S.length) :
    ∃ st', readBits st n = .ok (⟨natOfBits (((streamBits S).drop p).take n), n⟩, st') ∧
      Good S (p + n) st' := by
  obtain ⟨hlen7, hbits, hbytes, hcontent⟩ := hg
  have hdroplen : ((streamBits S).drop p).length = 8 * S.length - p := by
    rw [List.length_drop, streamBits_length]
  by_cases hfast : n ≤ st.buf.len
  · -- fast path: the residual buffer already holds the requested bits
    refine ⟨⟨st.stream, ⟨st.buf.bits >>> n, st.buf.len - n⟩⟩, ?_, ?_, ?_, hbytes, ?_⟩
    · rw [readBits_eq_fast (by omega) hfast, and_two_pow_sub_one]
      have hval : natOfBits (((streamBits S).drop p).take n) = st.buf.bits % 2 ^ n := by
        rw [← hcontent,
          List.take_append_of_le_length (by rw [bitsOfNat_length]; exact hfast),
          bitsOfNat_take _ hfast, natOfBits_bitsOfNat, Nat.mod_mod_of_dvd _ (dvd_refl _)]
      rw [hval, bitSeqNew_of_lt (by omega) (Nat.mod_lt _ (Nat.pos_pow_of_pos _ (by norm_num)))]
    · show st.buf.len - n ≤ 7
      omega
    · show st.buf.bits >>> n < 2 ^ (st.buf.len - n)
      rw [Nat.shiftRight_eq_div_pow]
      apply Nat.div_lt_of_lt_mul
      calc st.buf.bits < 2 ^ st.buf.len := hbits
        _ = 2 ^ n * 2 ^ (st.buf.len - n) := by rw [← pow_add]; congr 1; omega
    · show bitsOfNat (st.buf.bits >>> n) (st.buf.len - n) ++ streamBits st.stream
        = (streamBits S).drop (p + n)
      rw [Nat.shiftRight_eq_div_pow, ← List.drop_drop, ← hcontent,
        List.drop_append_of_le_length (by rw [bitsOfNat_length]; exact hfast),
        bitsOfNat_drop _ hfast]
  · -- slow path: 1 or 2 bytes must be fetched from the stream
    have hfast' : st.buf.len < n := by omega
    have hlen := good_length ⟨hlen7, hbits, hbytes, hcontent⟩
    by_cases htwo : 8 < n - st.buf.len
    · -- two-byte fetch
      rcases hs : st.stream with _ | ⟨b0, rest⟩
      · exfalso; rw [hs] at hlen; simp at hlen; omega
      rcases hr : rest with _ | ⟨b1, s1⟩
      · exfalso; rw [hs, hr] at hlen; simp at hlen; omega
      rw [hr] at hs
      have hb0 : b0 < 256 := hbytes b0 (by rw [hs]; simp)
      have hb1 : b1 < 256 := hbytes b1 (by rw [hs]; simp)
      have hbyte16 : b0 + 256 * b1 < 2 ^ 16 := by omega
      have hdecomp : streamBits st.stream = bitsOfNat (b0 + 256 * b1) 16 ++ streamBits s1 := by
        rw [hs]
        have h8 : b0 + 256 * b1 = b0 + 2 ^ 8 * b1 := by norm_num
        rw [h8, show (16 : Nat) = 8 + 8 from rfl, bitsOfNat_add_pow_mul b1 8 hb0]
        simp [streamBits, byteBits, List.append_assoc]
      refine ⟨⟨s1, ⟨(b0 + 256 * b1) / 2 ^ (n - st.buf.len), 16 - (n - st.buf.len)⟩⟩, ?_, ?_, ?_, ?_, ?_⟩
      · have hvalbits : natOfBits (((streamBits S).drop p).take n)
            = st.buf.bits + 2 ^ st.buf.len * ((b0 + 256 * b1) % 2 ^ (n - st.buf.len)) := by
          rw [← hcontent, hdecomp, List.take_append_eq_append_take,
            List.take_of_length_le (by rw [bitsOfNat_length]; omega), bitsOfNat_length,
            List.take_append_of_le_length (by rw [bitsOfNat_length]; omega),
            bitsOfNat_take _ (show n - st.buf.len ≤ 16 by omega), natOfBits_append,
            bitsOfNat_length, natOfBits_bitsOfNat, natOfBits_bitsOfNat,
            Nat.mod_eq_of_lt hbits, Nat.mod_mod_of_dvd _ (dvd_refl _)]
        have hbufeq : bitSeqNew ((b0 + 256 * b1) >>> ((n - st.buf.len) % 16))
              (16 - (n - st.buf.len))
            = (⟨(b0 + 256 * b1) / 2 ^ (n - st.buf.len), 16 - (n - st.buf.len)⟩ : BitSeq) := by
          rw [Nat.mod_eq_of_lt (show n - st.buf.len < 16 by omega), Nat.shiftRight_eq_div_pow]
          apply bitSeqNew_of_lt (by omega)
          apply Nat.div_lt_of_lt_mul
          calc b0 + 256 * b1 < 2 ^ 16 := hbyte16
            _ = 2 ^ (n - st.buf.len) * 2 ^ (16 - (n - st.buf.len)) := by
                rw [← pow_add]; congr 1; omega
        rw [readBits_eq_two (by omega) hfast' htwo hs,
          bitSeqConcat_eval' hbits hlen7 (by omega) (by omega), hvalbits, hbufeq,
          show st.buf.len + (n - st.buf.len) = n by omega]
      · show 16 - (n - st.buf.len) ≤ 7
        omega
      · show (b0 + 256 * b1) / 2 ^ (n - st.buf.len) < 2 ^ (16 - (n - st.buf.len))
        apply Nat.div_lt_of_lt_mul
        calc b0 + 256 * b1 < 2 ^ 16 := hbyte16
          _ = 2 ^ (n - st.buf.len) * 2 ^ (16 - (n - st.buf.len)) := by
              rw [← pow_add]; congr 1; omega
      · show ∀ b ∈ s1, b < 256
        intro b hb
        exact hbytes b (by rw [hs]; simp [hb])
      · show bitsOfNat ((b0 + 256 * b1) / 2 ^ (n - st.buf.len)) (16 - (n - st.buf.len))
            ++ streamBits s1 = (streamBits S).drop (p + n)
        rw [← List.drop_drop, ← hcontent, hdecomp, List.drop_append_eq_append_drop,
          List.drop_of_length_le (by rw [bitsOfNat_length]; omega), bitsOfNat_length,
          List.nil_append,
          List.drop_append_of_le_length (by rw [bitsOfNat_length]; omega),
          bitsOfNat_drop _ (show n - st.buf.len ≤ 16 by omega)]
    · -- one-byte fetch
      rcases hs : st.stream with _ | ⟨b0, s1⟩
      · exfalso; rw [hs] at hlen; simp at hlen; omega
      have hb0 : b0 < 256 := hbytes b0 (by rw [hs]; simp)
      have hbyte8 : b0 < 2 ^ 8 := hb0
      have hdecomp : streamBits st.stream = bitsOfNat b0 8 ++ streamBits s1 := by
        rw [hs]; simp [streamBits, byteBits]
      refine ⟨⟨s1, ⟨b0 / 2 ^ (n - st.buf.len), 8 - (n - st.buf.len)⟩⟩, ?_, ?_, ?_, ?_, ?_⟩
      · have hvalbits : natOfBits (((streamBits S).drop p).take n)
            = st.buf.bits + 2 ^ st.buf.len * (b0 % 2 ^ (n - st.buf.len)) := by
          rw [← hcontent, hdecomp, List.take_append_eq_append_take,
            List.take_of_length_le (by rw [bitsOfNat_length]; omega), bitsOfNat_length,
            List.take_append_of_le_length (by rw [bitsOfNat_length]; omega),
            bitsOfNat_take _ (show n - st.buf.len ≤ 8 by omega), natOfBits_append,
            bitsOfNat_length, natOfBits_bitsOfNat, natOfBits_bitsOfNat,
            Nat.mod_eq_of_lt hbits, Nat.mod_mod_of_dvd _ (dvd_refl _)]
        have hbufeq : bitSeqNew (b0 >>> ((n - st.buf.len) % 16)) (8 - (n - st.buf.len))
            = (⟨b0 / 2 ^ (n - st.buf.len), 8 - (n - st.buf.len)⟩ : BitSeq) := by
          rw [Nat.mod_eq_of_lt (show n - st.buf.len < 16 by omega), Nat.shiftRight_eq_div_pow]
          apply bitSeqNew_of_lt (by omega)
          apply Nat.div_lt_of_lt_mul
          calc b0 < 2 ^ 8 := hbyte8
            _ = 2 ^ (n - st.buf.len) * 2 ^ (8 - (n - st.buf.len)) := by
                rw [← pow_add]; congr 1; omega
        rw [readBits_eq_one (by omega) hfast' (by omega) hs,
          bitSeqConcat_eval' hbits hlen7 (by omega) (by omega), hvalbits, hbufeq,
          show st.buf.len + (n - st.buf.len) = n by omega]
      · show 8 - (n - st.buf.len) ≤ 7
        omega
      · show b0 / 2 ^ (n - st.buf.len) < 2 ^ (8 - (n - st.buf.len))
        apply Nat.div_lt_of_lt_mul
        calc b0 < 2 ^ 8 := hbyte8
          _ = 2 ^ (n - st.buf.len) * 2 ^ (8 - (n - st.buf.len)) := by
              rw [← pow_add]; congr 1; omega
      · show ∀ b ∈ s1, b < 256
        intro b hb
        exact hbytes b (by rw [hs]; simp [hb])
      · show bitsOfNat (b0 / 2 ^ (n - st.buf.len)) (8 - (n - st.buf.len))
            ++ streamBits s1 = (streamBits S).drop (p + n)
        rw [← List.drop_drop, ← hcontent, hdecomp, List.drop_append_eq_append_drop,
          List.drop_of_length_le (by rw [bitsOfNat_length]; omega), bitsOfNat_length,
          List.nil_append,
          List.drop_append_of_le_length (by rw [bitsOfNat_length]; omega),
          bitsOfNat_drop _ (show n - st.buf.len ≤ 8 by omega)]

theorem readBitsList_good {S : List Nat} {ns : List Nat} {p : Nat} {st : BRState}
    (hg : Good S p st) (hns : ∀ n ∈ ns, n ≤ 15) (hsum : p + ns.sum ≤ 8 * S.length) :
    ∃ vs st', readBitsList st ns = .ok (vs, st') ∧
      vs.map BitSeq.bits = specGroups ((streamBits S).drop p) ns ∧
      vs.map BitSeq.len = ns ∧ Good S (p + ns.sum) st' := by
  induction ns generalizing p st with
  | nil => exact ⟨[], st, rfl, rfl, rfl, by simpa using hg⟩
  | cons n ns ih =>
    have hsum1 : p + n ≤ 8 * S.length := by simp [List.sum_cons] at hsum; omega
    obtain ⟨st1, heq, hg1⟩ := readBits_step hg (hns n (by simp)) hsum1
    obtain ⟨vs, st2, heq2, hbits2, hlen2, hg2⟩ :=
      ih hg1 (fun m hm => hns m (by simp [hm])) (by simp [List.sum_cons] at hsum ⊢; omega)
    refine ⟨⟨natOfBits (((streamBits S).drop p).take n), n⟩ :: vs, st2, ?_, ?_, ?_, ?_⟩
    · simp only [readBitsList]
      rw [heq]
      simp only []
      rw [heq2]
    · simp only [specGroups, List.map_cons, List.drop_drop]
      rw [hbits2]
    · simp only [List.map_cons]
      rw [hlen2]
    · have : p + (n :: ns).sum = p + n + ns.sum := by simp [List.sum_cons]; omega
      rw [this]
      exact hg2

/-- C6, amended.  For every byte stream and every sequence of requested
lengths, each in `[0, 15]`, whose sum is at most 8 times the stream bit
size, the successive `read_bits` calls all succeed and return the groups
of the LSB-first bit expansion of the stream.  (The original claim
allowed lengths up to 16; it fails exactly when a 16-bit read arrives
while the residual bit buffer is empty, as the counterexample shows, so
the bound is lowered to 15.) -/
theorem read_bits_resplit_amended {S ns : List Nat} (hS : ∀ b ∈ S, b < 256)
    (hns : ∀ n ∈ ns, n ≤ 15) (hsum : ns.sum ≤ 8 * S.length) :
    ∃ vs st', readBitsList (brNew S) ns = .ok (vs, st') ∧
      vs.map BitSeq.bits = specGroups (streamBits S) ns ∧ vs.map BitSeq.len = ns := by
  obtain ⟨vs, st', h1, h2, h3, _⟩ := readBitsList_good (good_init hS) hns (by simpa)
  exact ⟨vs, st', h1, by simpa using h2, h3⟩

/-- C6, witness for the amended theorem: the byte 99 = 0b01100011 read as
a 3-bit then a 5-bit group. -/
theorem read_bits_resplit_amended_witness :
    ∃ vs st', readBitsList (brNew [99]) [3, 5] = .ok (vs, st') ∧
      vs.map BitSeq.bits = specGroups (streamBits [99]) [3, 5] ∧
      vs.map BitSeq.len = [3, 5] :=
  read_bits_resplit_amended (by decide) (by decide) (by decide)

theorem copyLoop_length (data : List Nat) (start bound ind k : Nat) :
    (copyLoop data start bound ind k).length = k := by
  induction k generalizing ind with
  | zero => rfl
  | succ k ih => simp [copyLoop, ih]

theorem copyLoop_getD (data : List Nat) {start bound : Nat} (hsb : start ≤ bound) :
    ∀ {k} {j i : Nat}, start ≤ j → j ≤ bound → i < k →
      (copyLoop data start bound j k).getD i 0
        = data.getD (start + ((j - start) + i) % (bound + 1 - start)) 0 := by
  intro k
  induction k with
  | zero => intro j i _ _ h; omega
  | succ k ih =>
    intro j i hj1 hj2 hik
    have hp : 0 < bound + 1 - start := by omega
    match i with
    | 0 =>
      have h0 : (j - start) % (bound + 1 - start) = j - start := Nat.mod_eq_of_lt (by omega)
      simp [copyLoop, h0, show start + (j - start) = j by omega]
    | i + 1 =>
      have hstep : (copyLoop data start bound j (k + 1)).getD (i + 1) 0
          = (copyLoop data start bound (if j = bound then start else j + 1) k).getD i 0 := by
        simp [copyLoop]
      rw [hstep]
      by_cases hjb : j = bound
      · rw [if_pos hjb, ih (le_refl start) hsb (by omega)]
        congr 2
        rw [show j - start + (i + 1) = i + (bound + 1 - start) by omega, Nat.add_mod_right,
          show start - start + i = i by omega]
      · rw [if_neg hjb, ih (by omega) (by omega) (by omega)]
        congr 2
        congr 1
        omega

/-- C2.  For a window holding the last emitted bytes and any
`1 ≤ d ≤ min(window length, 32768)`, a successful
`write_previous(d, ℓ)` emits exactly `ℓ` bytes, the `i`-th of which is
`window[size − d + (i mod d)]` — the periodic extension of the last `d`
bytes, also when `d < ℓ`. -/
theorem write_previous_back_reference {w w' : TWriter} {d l : Nat}
    (hd1 : 1 ≤ d) (hd : d ≤ min w.history.length 32768)
    (hok : writePrevious w d l = .ok w') :
    w'.inner.length = w.inner.length + l ∧
    ∀ i < l, w'.inner.getD (w.inner.length + i) 0
      = w.history.getD (w.history.length - d + i % d) 0 := by
  have hdlen : d ≤ w.history.length := le_trans hd (min_le_left _ _)
  by_cases h32 : d < historySize
  · unfold writePrevious at hok
    rw [if_pos hdlen, if_pos h32] at hok
    have hw' : w' = twWrite w (copyLoop w.history (w.history.length - d)
        (min w.history.length (w.history.length - d + l) - 1) (w.history.length - d) l) :=
      (Except.ok.inj hok).symm
    subst hw'
    constructor
    · simp [twWrite, copyLoop_length]
    · intro i hil
      have hl1 : 1 ≤ l := by omega
      have hstartb : w.history.length - d ≤ min w.history.length (w.history.length - d + l) - 1 := by
        have h1 : w.history.length - d + 1 ≤ w.history.length := by omega
        have h2 : w.history.length - d + 1 ≤ w.history.length - d + l := by omega
        omega
      have happend : (twWrite w (copyLoop w.history (w.history.length - d)
            (min w.history.length (w.history.length - d + l) - 1) (w.history.length - d) l)).inner.getD
            (w.inner.length + i) 0
          = (copyLoop w.history (w.history.length - d)
            (min w.history.length (w.history.length - d + l) - 1) (w.history.length - d) l).getD i 0 := by
        simp only [twWrite]
        rw [List.getD_append_right _ _ _ _ (by omega), Nat.add_sub_cancel_left]
      rw [happend, copyLoop_getD w.history hstartb (le_refl _) hstartb hil]
      have hindex : w.history.length - d + (w.history.length - d - (w.history.length - d) + i)
            % (min w.history.length (w.history.length - d + l) - 1 + 1 - (w.history.length - d))
          = w.history.length - d + i % d := by
        by_cases hdl : d ≤ l
        · rw [min_eq_left (by omega)]
          congr 1
          rw [show w.history.length - d - (w.history.length - d) + i = i by omega]
          congr 1
          omega
        · rw [min_eq_right (by omega),
            show w.history.length - d - (w.history.length - d) + i = i by omega,
            show w.history.length - d + l - 1 + 1 - (w.history.length - d) = l by omega,
            Nat.mod_eq_of_lt hil, Nat.mod_eq_of_lt (by omega)]
      rw [hindex]
  · exfalso
    unfold writePrevious at hok
    rw [if_pos hdlen, if_neg h32] at hok
    cases hok

/-- C2, witness: a window `[1, 2, 3]` and `write_previous(2, 5)`, which
emits `[2, 3, 2, 3, 2]`. -/
theorem write_previous_back_reference_witness :
    (⟨[9, 2, 3, 2, 3, 2], [1, 2, 3, 2, 3, 2, 3, 2], 8, 2933004815⟩ : TWriter).inner.length
        = (⟨[9], [1, 2, 3], 3, 0⟩ : TWriter).inner.length + 5 ∧
    ∀ i < 5, (⟨[9, 2, 3, 2, 3, 2], [1, 2, 3, 2, 3, 2, 3, 2], 8, 2933004815⟩ : TWriter).inner.getD
        ((⟨[9], [1, 2, 3], 3, 0⟩ : TWriter).inner.length + i) 0
      = (⟨[9], [1, 2, 3], 3, 0⟩ : TWriter).history.getD
        ((⟨[9], [1, 2, 3], 3, 0⟩ : TWriter).history.length - 2 + i % 2) 0 :=
  write_previous_back_reference (by decide) (by decide) (by set_option maxRecDepth 8000 in decide)

/-- C8, counterexample.  With a full 32768-byte window, the claim says
`write_previous(32768, 1)` succeeds (32768 does not exceed the window
length and does not exceed 32768); the code's second guard is the strict
`dist < 32768`, so it fails. -/
theorem write_previous_boundary_counterexample :
    writePrevious ⟨[], List.replicate 32768 0, 32768, crc32Init⟩ 32768 1
      = .error "dist must be less 32768" := by
  have hlenr : (List.replicate 32768 (0 : Nat)).length = 32768 := List.length_replicate _ _
  unfold writePrevious
  rw [if_pos (by rw [hlenr]), if_neg (by norm_num [historySize])]

/-- C8, amended.  For `1 ≤ distance`, `write_previous(distance, length)`
fails with the distance-range error exactly when the distance exceeds
the current window length or is at least 32768 (strictly: the code
rejects the boundary value 32768 itself), and succeeds whenever
`1 ≤ distance ≤ min(window length, 32767)`. -/
theorem write_previous_range_amended {w : TWriter} {d l : Nat} (hd1 : 1 ≤ d) :
    (writePrevious w d l = .error "dist is out of border" ↔ w.history.length < d) ∧
    (writePrevious w d l = .error "dist must be less 32768" ↔
      (d ≤ w.history.length ∧ 32768 ≤ d)) ∧
    ((∃ w', writePrevious w d l = .ok w') ↔ (d ≤ w.history.length ∧ d < 32768)) := by
  unfold writePrevious
  by_cases h1 : d ≤ w.history.length
  · rw [if_pos h1]
    by_cases h2 : d < historySize
    · have h2' : d < 32768 := by simpa [historySize] using h2
      rw [if_pos h2]
      refine ⟨?_, ?_, ?_⟩
      · constructor
        · intro h; cases h
        · intro h; omega
      · constructor
        · intro h; cases h
        · intro h; omega
      · constructor
        · intro _; exact ⟨h1, h2'⟩
        · intro _; exact ⟨_, rfl⟩
    · have h2' : 32768 ≤ d := by simp [historySize] at h2; omega
      rw [if_neg h2]
      refine ⟨?_, ?_, ?_⟩
      · constructor
        · intro h; injection h with h; exact absurd h (by decide)
        · intro h; omega
      · constructor
        · intro _; exact ⟨h1, h2'⟩
        · intro _; rfl
      · constructor
        · rintro ⟨w', hw'⟩; cases hw'
        · intro h; omega
  · rw [if_neg h1]
    refine ⟨?_, ?_, ?_⟩
    · constructor
      · intro _; omega
      · intro _; rfl
    · constructor
      · intro h; injection h with h; exact absurd h (by decide)
      · intro h; omega
    · constructor
      · rintro ⟨w', hw'⟩; cases hw'
      · intro h; omega

/-- C8, witness for the amended theorem: window `[7]`, distance 1. -/
theorem write_previous_range_amended_witness :
    ((writePrevious ⟨[], [7], 1, 0⟩ 1 2 = .error "dist is out of border" ↔
      ((⟨[], [7], 1, 0⟩ : TWriter)).history.length < 1) ∧
    (writePrevious ⟨[], [7], 1, 0⟩ 1 2 = .error "dist must be less 32768" ↔
      (1 ≤ ((⟨[], [7], 1, 0⟩ : TWriter)).history.length ∧ 32768 ≤ 1)) ∧
    ((∃ w', writePrevious ⟨[], [7], 1, 0⟩ 1 2 = .ok w') ↔
      (1 ≤ ((⟨[], [7], 1, 0⟩ : TWriter)).history.length ∧ 1 < 32768))) :=
  write_previous_range_amended (by decide)

/-- C5.  With the byte counter reset at the start of the member
(`initial_len = 0`), footer validation fails with the length message
exactly when the observed byte count differs from ISIZE, fails with the
CRC message exactly when the length matched but the trailer CRC-32
differs from the tracked digest, and accepts exactly when both match. -/
theorem validate_footer_checks (w : TWriter) (f : MemberFooter) :
    (validateFooterData w 0 f = .error "length check failed" ↔ w.byteCount ≠ f.dataSize) ∧
    (validateFooterData w 0 f = .error "crc32 check failed" ↔
      (w.byteCount = f.dataSize ∧ f.dataCrc32 ≠ twCrc32 w)) ∧
    (validateFooterData w 0 f = .ok () ↔ (w.byteCount = f.dataSize ∧ f.dataCrc32 = twCrc32 w)) := by
  unfold validateFooterData
  by_cases hl : w.byteCount = f.dataSize
  · rw [if_neg (by omega)]
    by_cases hc : f.dataCrc32 = twCrc32 w
    · rw [if_neg (by simp [hc])]
      refine ⟨?_, ?_, ?_⟩
      · constructor
        · intro h; cases h
        · intro h; omega
      · constructor
        · intro h; cases h
        · rintro ⟨-, hne⟩; exact absurd hc hne
      · constructor
        · intro _; exact ⟨hl, hc⟩
        · intro _; rfl
    · rw [if_pos hc]
      refine ⟨?_, ?_, ?_⟩
      · constructor
        · intro h; injection h with h; exact absurd h (by decide)
        · intro h; omega
      · constructor
        · intro _; exact ⟨hl, hc⟩
        · intro _; rfl
      · constructor
        · intro h; cases h
        · rintro ⟨-, hce⟩; exact absurd hce hc
  · rw [if_pos (by omega)]
    refine ⟨?_, ?_, ?_⟩
    · constructor
      · intro _; omega
      · intro _; rfl
    · constructor
      · intro h; injection h with h; exact absurd h (by decide)
      · rintro ⟨he, -⟩; exact absurd he hl
    · constructor
      · intro h; cases h
      · rintro ⟨he, -⟩; exact absurd he hl

theorem firstCode_closed (lens : List Nat) (b : Nat) :
    firstCode lens b = (Finset.range b).sum (fun j => blCount lens j * 2 ^ (b - j)) := by
  induction b with
  | zero => simp [firstCode]
  | succ b ih =>
    rw [firstCode, ih, Finset.sum_range_succ, Nat.add_mul, Finset.sum_mul]
    congr 1
    · apply Finset.sum_congr rfl
      intro j hj
      have hjb : j < b := Finset.mem_range.mp hj
      rw [Nat.mul_assoc, show (2 : Nat) ^ (b - j) * 2 = 2 ^ (b + 1 - j) by
        rw [← pow_succ]; congr 1; omega]
    · rw [show b + 1 - b = 1 by omega, pow_one]

theorem firstCode_add_count_le {lens : List Nat} (hK : KraftEq lens) {b : Nat} (hb : b ≤ 15) :
    firstCode lens b + blCount lens b ≤ 2 ^ b := by
  have hK' : (Finset.range 16).sum (fun j => blCount lens j * 2 ^ (15 - j)) = 2 ^ 15 := hK
  have hsum : ((Finset.range (b + 1)).sum (fun j => blCount lens j * 2 ^ (15 - j))) ≤ 2 ^ 15 := by
    rw [← hK']
    apply Finset.sum_le_sum_of_subset
    intro x hx
    simp only [Finset.mem_range] at hx ⊢
    omega
  clear hK hK'
  have hfact : (firstCode lens b + blCount lens b) * 2 ^ (15 - b)
      = (Finset.range (b + 1)).sum (fun j => blCount lens j * 2 ^ (15 - j)) := by
    rw [Finset.sum_range_succ, firstCode_closed, Nat.add_mul, Finset.sum_mul]
    congr 1
    apply Finset.sum_congr rfl
    intro j hj
    have hjb : j < b := Finset.mem_range.mp hj
    rw [Nat.mul_assoc, ← pow_add, show b - j + (15 - b) = 15 - j by omega]
  have hpow : 0 < 2 ^ (15 - b) := Nat.pos_pow_of_pos _ (by norm_num)
  have h2 : (firstCode lens b + blCount lens b) * 2 ^ (15 - b) ≤ 2 ^ b * 2 ^ (15 - b) := by
    rw [hfact, ← pow_add, show b + (15 - b) = 15 by omega]
    exact hsum
  exact Nat.le_of_mul_le_mul_right h2 hpow

theorem firstCode_growth (lens : List Nat) {j l : Nat} (hjl : j < l) :
    (firstCode lens j + blCount lens j) * 2 ^ (l - j) ≤ firstCode lens l := by
  induction l with
  | zero => omega
  | succ l ih =>
    by_cases hl : j < l
    · have h1 := ih hl
      calc (firstCode lens j + blCount lens j) * 2 ^ (l + 1 - j)
          = (firstCode lens j + blCount lens j) * 2 ^ (l - j) * 2 := by
            rw [Nat.mul_assoc, ← pow_succ]; congr 2; omega
        _ ≤ firstCode lens l * 2 := by omega
        _ ≤ (firstCode lens l + blCount lens l) * 2 := by omega
        _ = firstCode lens (l + 1) := rfl
    · have hj : j = l := by omega
      subst hj
      rw [show j + 1 - j = 1 by omega, pow_one]
      rfl

theorem take_split (l : List Nat) {i t : Nat} (h : i ≤ t) :
    l.take t = l.take i ++ (l.drop i).take (t - i) := by
  have h1 : l.take i = (l.take t).take i := by rw [List.take_take, min_eq_left h]
  rw [List.take_drop, show i + (t - i) = t by omega, h1, List.take_append_drop]

theorem count_take_lt {lens : List Nat} {i t : Nat} (hit : i < t) (ht : t ≤ lens.length) :
    (lens.take i).count (lens.getD i 0) < (lens.take t).count (lens.getD i 0) := by
  have hi : i < lens.length := by omega
  have hdrop : lens.drop i = lens.getD i 0 :: lens.drop (i + 1) := by
    rw [List.getD_eq_getElem _ _ hi]
    exact List.drop_eq_getElem_cons hi
  rw [take_split lens (le_of_lt hit), List.count_append, hdrop,
    show t - i = (t - i - 1) + 1 by omega, List.take_succ_cons, List.count_cons_self]
  omega

theorem canonVal_lt {lens : List Nat} (h15 : ∀ l ∈ lens, l ≤ 15) (hK : KraftEq lens)
    {i : Nat} (hi : i < lens.length) (hpos : 0 < lens.getD i 0) :
    canonVal lens i < 2 ^ lens.getD i 0 := by
  have hle : lens.getD i 0 ≤ 15 := by
    apply h15
    rw [List.getD_eq_getElem _ _ hi]
    exact List.getElem_mem hi
  have hcnt : (lens.take i).count (lens.getD i 0) < lens.count (lens.getD i 0) := by
    have := count_take_lt (i := i) (t := lens.length) hi (le_refl _)
    rwa [List.take_length] at this
  have hbl : blCount lens (lens.getD i 0) = lens.count (lens.getD i 0) := by
    unfold blCount
    rw [if_neg (by omega)]
  have hF1 := firstCode_add_count_le hK hle
  unfold canonVal
  omega

theorem nextCodeInit_eq_firstCode {lens : List Nat} (hK : KraftEq lens) :
    ∀ {b : Nat}, b ≤ 15 → nextCodeInit lens b = firstCode lens b := by
  intro b
  induction b with
  | zero => intro _; rfl
  | succ b ih =>
    intro hb
    have hF1 := firstCode_add_count_le hK (show b ≤ 15 by omega)
    have hpow : 2 ^ b ≤ 2 ^ 14 := Nat.pow_le_pow_right (by norm_num) (by omega)
    have h14 : (2 : Nat) ^ 14 = 16384 := by norm_num
    rw [nextCodeInit, firstCode, ih (by omega), Nat.mod_eq_of_lt (by omega)]

theorem fromLengthsGen_spec {lens : List Nat} (h15 : ∀ l ∈ lens, l ≤ 15) (hK : KraftEq lens) :
    ∀ (rest : List Nat) (k : Nat), rest = lens.drop k →
      ∀ (nc : Nat → Nat), (∀ b, 1 ≤ b → b ≤ 15 → nc b = firstCode lens b + (lens.take k).count b) →
      ∀ (acc : List (BitSeq × Nat)),
      ∃ m, fromLengthsGen (fun s => Except.ok s) (rest.enumFrom k) nc acc = .ok m ∧
        ∀ e, e ∈ m ↔
          ((∃ i, k ≤ i ∧ i < lens.length ∧ 0 < lens.getD i 0 ∧ e = canonEntry lens i) ∨ e ∈ acc) := by
  intro rest
  induction rest with
  | nil =>
    intro k hk nc hnc acc
    refine ⟨acc, rfl, fun e => ⟨fun he => Or.inr he, fun he => ?_⟩⟩
    rcases he with ⟨i, hki, hil, _, _⟩ | he
    · exfalso
      have : lens.length ≤ k := by
        by_contra hcon
        have := congrArg List.length hk
        simp [List.length_drop] at this
        omega
      omega
    · exact he
  | cons len rest' ih =>
    intro k hk nc hnc acc
    have hkl : k < lens.length := by
      by_contra hcon
      rw [List.drop_eq_nil_of_le (by omega)] at hk
      cases hk
    have hdropk : lens.drop k = lens.getD k 0 :: lens.drop (k + 1) := by
      rw [List.getD_eq_getElem _ _ hkl]
      exact List.drop_eq_getElem_cons hkl
    rw [hdropk] at hk
    have hlen : len = lens.getD k 0 := (List.cons.inj hk).1
    have hrest' : rest' = lens.drop (k + 1) := (List.cons.inj hk).2
    have htake : lens.take (k + 1) = lens.take k ++ [lens.getD k 0] := by
      rw [List.take_succ, List.getElem?_eq_getElem hkl, List.getD_eq_getElem _ _ hkl]
      rfl
    simp only [List.enumFrom]
    by_cases hpos : 0 < len
    · have hlen15 : len ≤ 15 := by
        apply h15
        rw [hlen, List.getD_eq_getElem _ _ hkl]
        exact List.getElem_mem hkl
      have hncval : nc len = canonVal lens k := by
        rw [hnc len (by omega) hlen15, hlen]
        rfl
      have hcv : canonVal lens k < 2 ^ lens.getD k 0 :=
        canonVal_lt h15 hK hkl (by omega)
      have hkey : bitSeqNew (nc len) len = ⟨canonVal lens k, lens.getD k 0⟩ := by
        rw [hncval, hlen]
        exact bitSeqNew_of_lt (by omega) hcv
      have hnc' : ∀ b, 1 ≤ b → b ≤ 15 →
          (if b = len then (nc len + 1) % 65536 else nc b)
            = firstCode lens b + (lens.take (k + 1)).count b := by
        intro b hb1 hb15
        by_cases hbl : b = len
        · subst hbl
          have hbound : firstCode lens b + blCount lens b ≤ 2 ^ b := firstCode_add_count_le hK hb15
          have hpow : 2 ^ b ≤ 2 ^ 15 := Nat.pow_le_pow_right (by norm_num) (by omega)
          have hcnt : (lens.take k).count b < blCount lens b := by
            unfold blCount
            rw [if_neg (by omega)]
            have := count_take_lt (i := k) (t := lens.length) hkl (le_refl _)
            rw [List.take_length] at this
            rw [← hlen] at this
            exact this
          rw [if_pos rfl, hnc b hb1 hb15, htake, List.count_append, Nat.mod_eq_of_lt (by omega)]
          have : [lens.getD k 0].count b = 1 := by
            rw [← hlen]
            simp
          omega
        · rw [if_neg hbl, hnc b hb1 hb15, htake, List.count_append]
          have : [lens.getD k 0].count b = 0 := by
            rw [← hlen]
            simp [List.count_singleton]
            intro hc
            exact absurd hc.symm hbl
          omega
      obtain ⟨m, hm, hmem⟩ := ih (k + 1) hrest'
        (fun b => if b = len then (nc len + 1) % 65536 else nc b) hnc'
        ((bitSeqNew (nc len) len, k) :: acc)
      refine ⟨m, ?_, fun e => ?_⟩
      · simp only [fromLengthsGen]
        rw [if_pos hpos]
        exact hm
      rw [hmem e]
      constructor
      · rintro (⟨i, hki, hil, hip, he⟩ | he)
        · exact Or.inl ⟨i, by omega, hil, hip, he⟩
        · rcases List.mem_cons.mp he with he | he
          · refine Or.inl ⟨k, le_refl _, hkl, by omega, ?_⟩
            rw [he, hkey]
            rfl
          · exact Or.inr he
      · rintro (⟨i, hki, hil, hip, he⟩ | he)
        · by_cases hik : i = k
          · subst hik
            refine Or.inr (List.mem_cons.mpr (Or.inl ?_))
            rw [he, hkey]
            rfl
          · exact Or.inl ⟨i, by omega, hil, hip, he⟩
        · exact Or.inr (List.mem_cons.mpr (Or.inr he))
    · have hnc' : ∀ b, 1 ≤ b → b ≤ 15 →
          nc b = firstCode lens b + (lens.take (k + 1)).count b := by
        intro b hb1 hb15
        rw [hnc b hb1 hb15, htake, List.count_append]
        have : [lens.getD k 0].count b = 0 := by
          rw [← hlen]
          simp [List.count_singleton]
          omega
        omega
      obtain ⟨m, hm, hmem⟩ := ih (k + 1) hrest' nc hnc' acc
      refine ⟨m, ?_, fun e => ?_⟩
      · simp only [fromLengthsGen]
        rw [if_neg hpos]
        exact hm
      rw [hmem e]
      constructor
      · rintro (⟨i, hki, hil, hip, he⟩ | he)
        · exact Or.inl ⟨i, by omega, hil, hip, he⟩
        · exact Or.inr he
      · rintro (⟨i, hki, hil, hip, he⟩ | he)
        · have hik : i ≠ k := by
            intro hik
            subst hik
            rw [← hlen] at hip
            omega
          exact Or.inl ⟨i, by omega, hil, hip, he⟩
        · exact Or.inr he

theorem fromLengths_ok {lens : List Nat} (h15 : ∀ l ∈ lens, l ≤ 15) (hK : KraftEq lens) :
    ∃ m, fromLengths (fun s => Except.ok s) lens = .ok m ∧
      ∀ e, e ∈ m ↔ ∃ i, i < lens.length ∧ 0 < lens.getD i 0 ∧ e = canonEntry lens i := by
  obtain ⟨m, hm, hmem⟩ := fromLengthsGen_spec h15 hK lens 0 (by rw [List.drop_zero])
    (nextCodeInit lens)
    (fun b hb1 hb15 => by rw [nextCodeInit_eq_firstCode hK hb15]; simp) []
  refine ⟨m, hm, fun e => ?_⟩
  rw [hmem e]
  constructor
  · rintro (⟨i, -, hil, hip, he⟩ | he)
    · exact ⟨i, hil, hip, he⟩
    · cases he
  · rintro ⟨i, hil, hip, he⟩
    exact Or.inl ⟨i, Nat.zero_le _, hil, hip, he⟩

theorem canonVal_lt_firstCode_add {lens : List Nat} {t : Nat}
    (ht : t < lens.length) (hpt : 0 < lens.getD t 0) :
    canonVal lens t < firstCode lens (lens.getD t 0) + blCount lens (lens.getD t 0) := by
  have hcnt : (lens.take t).count (lens.getD t 0) < lens.count (lens.getD t 0) := by
    have := count_take_lt (i := t) (t := lens.length) ht (le_refl _)
    rwa [List.take_length] at this
  have hbl : blCount lens (lens.getD t 0) = lens.count (lens.getD t 0) := by
    unfold blCount
    rw [if_neg (by omega)]
  unfold canonVal
  omega

theorem canonEntry_key_inj {lens : List Nat} {i t : Nat}
    (hi : i < lens.length) (ht : t < lens.length)
    (hkey : (⟨canonVal lens i, lens.getD i 0⟩ : BitSeq) = ⟨canonVal lens t, lens.getD t 0⟩) :
    i = t := by
  have hv : canonVal lens i = canonVal lens t := congrArg BitSeq.bits hkey
  have hl : lens.getD i 0 = lens.getD t 0 := congrArg BitSeq.len hkey
  rcases lt_trichotomy i t with hlt | heq | hgt
  · exfalso
    have hc := count_take_lt (i := i) (t := t) hlt (le_of_lt ht)
    unfold canonVal at hv
    rw [hl] at hv hc
    omega
  · exact heq
  · exfalso
    have hc := count_take_lt (i := t) (t := i) hgt (le_of_lt hi)
    unfold canonVal at hv
    rw [hl] at hv
    omega

theorem decodeSymbol_none {lens : List Nat} {m : List (BitSeq × Nat)}
    (hmem : ∀ e, e ∈ m ↔ ∃ i, i < lens.length ∧ 0 < lens.getD i 0 ∧ e = canonEntry lens i)
    {key : BitSeq}
    (hkey : ∀ i, i < lens.length → 0 < lens.getD i 0 →
      (⟨canonVal lens i, lens.getD i 0⟩ : BitSeq) ≠ key) :
    decodeSymbol m key = none := by
  unfold decodeSymbol
  rw [List.find?_eq_none.mpr]
  · rfl
  · intro e he
    obtain ⟨i, hil, hip, hei⟩ := (hmem e).mp he
    simp only [decide_eq_true_eq]
    rw [hei]
    exact hkey i hil hip

theorem decodeSymbol_some {lens : List Nat} {m : List (BitSeq × Nat)}
    (hmem : ∀ e, e ∈ m ↔ ∃ i, i < lens.length ∧ 0 < lens.getD i 0 ∧ e = canonEntry lens i)
    {i : Nat} (hi : i < lens.length) (hpos : 0 < lens.getD i 0) :
    decodeSymbol m (⟨canonVal lens i, lens.getD i 0⟩ : BitSeq) = some i := by
  have hin : canonEntry lens i ∈ m := (hmem _).mpr ⟨i, hi, hpos, rfl⟩
  unfold decodeSymbol
  match hf : m.find? (fun e => decide (e.1 = (⟨canonVal lens i, lens.getD i 0⟩ : BitSeq))) with
  | none =>
    exfalso
    have := List.find?_eq_none.mp hf _ hin
    simp [canonEntry] at this
  | some e =>
    have hpe : e.1 = (⟨canonVal lens i, lens.getD i 0⟩ : BitSeq) := by
      have := List.find?_some hf
      simpa using this
    have hem := List.mem_of_find?_eq_some hf
    obtain ⟨t, htl, htp, hte⟩ := (hmem e).mp hem
    have : t = i := by
      apply canonEntry_key_inj htl hi
      rw [← hpe, hte]
      rfl
    rw [hf, hte, this]
    rfl

theorem readSymbolAux_run {lens : List Nat} {m : List (BitSeq × Nat)}
    (hmem : ∀ e, e ∈ m ↔ ∃ t, t < lens.length ∧ 0 < lens.getD t 0 ∧ e = canonEntry lens t)
    {i : Nat} (hi : i < lens.length) (hpos : 0 < lens.getD i 0)
    (hL15 : lens.getD i 0 ≤ 15)
    (hCbound : canonVal lens i < 2 ^ lens.getD i 0)
    (hpfx : ∀ t, t < lens.length → 0 < lens.getD t 0 → ∀ j, j + 1 < lens.getD i 0 →
      lens.getD t 0 = j + 1 → canonVal lens t < canonVal lens i / 2 ^ (lens.getD i 0 - (j + 1)))
    {S : List Nat}
    (hpre : (streamBits S).take (lens.getD i 0) = msbBits (canonVal lens i) (lens.getD i 0))
    (hlen8 : lens.getD i 0 ≤ 8 * S.length) :
    ∀ fuel j st, j < lens.getD i 0 → Good S j st →
      lens.getD i 0 - j ≤ fuel →
      ∃ st', readSymbolAux m st ⟨canonVal lens i / 2 ^ (lens.getD i 0 - j), j⟩ fuel
        = .ok (i, st') := by
  intro fuel
  induction fuel with
  | zero =>
    intro j st hj _ hfuel
    omega
  | succ f ih =>
    intro j st hjL hg hfuel
    obtain ⟨st1, heq, hg1⟩ := readBits_step (n := 1) hg (by norm_num) (by omega)
    have hjlen : j < (streamBits S).length := by rw [streamBits_length]; omega
    have hb1 : (streamBits S)[j]? = some (Nat.testBit (canonVal lens i)
        (lens.getD i 0 - (j + 1))) := by
      rw [← List.getElem?_take_of_lt hjL, hpre]
      unfold msbBits
      rw [List.getElem?_map]
      have hr : (List.range (lens.getD i 0))[j]? = some j := by
        rw [List.getElem?_eq_getElem (by rw [List.length_range]; omega), List.getElem_range]
      rw [hr]
      show some (Nat.testBit (canonVal lens i) (lens.getD i 0 - 1 - j)) = _
      congr 2
      omega
    have hgj : (streamBits S)[j] = Nat.testBit (canonVal lens i)
        (lens.getD i 0 - (j + 1)) := by
      have := hb1
      rw [List.getElem?_eq_getElem hjlen] at this
      exact Option.some.inj this
    have hbit : ((streamBits S).drop j).take 1
        = [Nat.testBit (canonVal lens i) (lens.getD i 0 - (j + 1))] := by
      rw [List.drop_eq_getElem_cons hjlen, List.take_succ_cons, List.take_zero, hgj]
    have hval : natOfBits (((streamBits S).drop j).take 1)
        = canonVal lens i / 2 ^ (lens.getD i 0 - (j + 1)) % 2 := by
      rw [hbit, Nat.testBit_to_div_mod]
      rcases Nat.mod_two_eq_zero_or_one (canonVal lens i / 2 ^ (lens.getD i 0 - (j + 1))) with
        hm | hm <;> rw [hm] <;> simp [natOfBits]
    have hdivdiv : canonVal lens i / 2 ^ (lens.getD i 0 - j)
        = canonVal lens i / 2 ^ (lens.getD i 0 - (j + 1)) / 2 := by
      rw [Nat.div_div_eq_div_mul, ← pow_succ]
      congr 2
      omega
    have holdlt : canonVal lens i / 2 ^ (lens.getD i 0 - j) < 2 ^ j := by
      apply Nat.div_lt_of_lt_mul
      calc canonVal lens i < 2 ^ lens.getD i 0 := hCbound
        _ = 2 ^ (lens.getD i 0 - j) * 2 ^ j := by rw [← pow_add]; congr 1; omega
    have hbitlt : natOfBits (((streamBits S).drop j).take 1) < 2 ^ 1 := by
      rw [hval, pow_one]
      exact Nat.mod_lt _ (by norm_num)
    have hacc : bitSeqConcat ⟨natOfBits (((streamBits S).drop j).take 1), 1⟩
          ⟨canonVal lens i / 2 ^ (lens.getD i 0 - j), j⟩
        = ⟨canonVal lens i / 2 ^ (lens.getD i 0 - (j + 1)), j + 1⟩ := by
      rw [show (⟨canonVal lens i / 2 ^ (lens.getD i 0 - j), j⟩ : BitSeq)
          = bitSeqNew (canonVal lens i / 2 ^ (lens.getD i 0 - j)) j from
          (bitSeqNew_of_lt (by omega) holdlt).symm]
      rw [bitSeqConcat_eval hbitlt (by norm_num) (show (1 : Nat) + j ≤ 15 by omega) holdlt]
      have hq := Nat.div_add_mod (canonVal lens i / 2 ^ (lens.getD i 0 - (j + 1))) 2
      show (⟨natOfBits (((streamBits S).drop j).take 1)
          + 2 ^ (1 : Nat) * (canonVal lens i / 2 ^ (lens.getD i 0 - j)), 1 + j⟩ : BitSeq) = _
      rw [pow_one, hval, hdivdiv]
      congr 1 <;> omega
    simp only [readSymbolAux]
    rw [heq]
    simp only [hacc]
    by_cases hjL1 : j + 1 = lens.getD i 0
    · have hC0 : canonVal lens i / 2 ^ (lens.getD i 0 - (j + 1)) = canonVal lens i := by
        rw [hjL1, Nat.sub_self, pow_zero, Nat.div_one]
      rw [hC0, hjL1, decodeSymbol_some hmem hi hpos]
      exact ⟨st1, rfl⟩
    · have hnone : decodeSymbol m
          (⟨canonVal lens i / 2 ^ (lens.getD i 0 - (j + 1)), j + 1⟩ : BitSeq) = none := by
        apply decodeSymbol_none hmem
        intro t htl htp hkey
        have hv : canonVal lens t = canonVal lens i / 2 ^ (lens.getD i 0 - (j + 1)) :=
          congrArg BitSeq.bits hkey
        have hl : lens.getD t 0 = j + 1 := congrArg BitSeq.len hkey
        have := hpfx t htl htp j (by omega) hl
        omega
      rw [hnone]
      exact ih (j + 1) st1 (by omega) hg1 (by omega)

/-- C3.  For every code-length array with all lengths at most 15 that
satisfies Kraft's inequality with equality, `from_lengths` succeeds, and
for every symbol with nonzero length, `read_symbol` applied to a fresh
reader over a byte stream whose bit expansion begins with that symbol's
canonical code, in the on-wire (most-significant code bit first) order,
returns exactly that symbol. -/
theorem from_lengths_read_symbol_roundtrip {lens : List Nat}
    (h15 : ∀ l ∈ lens, l ≤ 15) (hK : KraftEq lens)
    {i : Nat} (hi : i < lens.length) (hpos : 0 < lens.getD i 0)
    {S : List Nat} (hS : ∀ b ∈ S, b < 256)
    (hpre : (streamBits S).take (lens.getD i 0) = msbBits (canonVal lens i) (lens.getD i 0)) :
    ∃ m st', fromLengths (fun s => Except.ok s) lens = .ok m ∧
      readSymbol m (brNew S) = .ok (i, st') := by
  obtain ⟨m, hm, hmem⟩ := fromLengths_ok h15 hK
  have hL15 : lens.getD i 0 ≤ 15 := h15 _ (by
    rw [List.getD_eq_getElem _ _ hi]
    exact List.getElem_mem hi)
  have hCb := canonVal_lt h15 hK hi hpos
  have hlen8 : lens.getD i 0 ≤ 8 * S.length := by
    have hlen := congrArg List.length hpre
    rw [List.length_take, streamBits_length] at hlen
    unfold msbBits at hlen
    rw [List.length_map, List.length_range] at hlen
    have := min_le_right (lens.getD i 0) (8 * S.length)
    omega
  have hpfx : ∀ t, t < lens.length → 0 < lens.getD t 0 → ∀ j, j + 1 < lens.getD i 0 →
      lens.getD t 0 = j + 1 →
      canonVal lens t < canonVal lens i / 2 ^ (lens.getD i 0 - (j + 1)) := by
    intro t htl htp j hj1 hlt
    have h1 := canonVal_lt_firstCode_add htl htp
    rw [hlt] at h1
    have h2 := firstCode_growth lens (j := j + 1) (l := lens.getD i 0) hj1
    have h3 : firstCode lens (lens.getD i 0) ≤ canonVal lens i := Nat.le_add_right _ _
    have h4 : firstCode lens (j + 1) + blCount lens (j + 1)
        ≤ canonVal lens i / 2 ^ (lens.getD i 0 - (j + 1)) := by
      rw [Nat.le_div_iff_mul_le (Nat.pos_pow_of_pos _ (by norm_num))]
      omega
    omega
  obtain ⟨st', hrun⟩ := readSymbolAux_run hmem hi hpos hL15 hCb hpfx hpre hlen8
    (8 * S.length + 0 + 1) 0 (brNew S) (by omega) (good_init hS) (by omega)
  refine ⟨m, st', hm, ?_⟩
  have hacc0 : (⟨canonVal lens i / 2 ^ (lens.getD i 0 - 0), 0⟩ : BitSeq) = bitSeqNew 0 0 := by
    rw [Nat.sub_zero, Nat.div_eq_of_lt hCb]
    rfl
  rw [hacc0] at hrun
  exact hrun

/-- C3, witness: the length array `[2, 3, 4, 3, 3, 4, 2]` of the Rust
unit tests; symbol 1 has the 3-bit canonical code `0b100`, and the
stream byte 1 carries exactly these bits LSB-first. -/
theorem from_lengths_read_symbol_roundtrip_witness :
    ∃ m st', fromLengths (fun s => Except.ok s) [2, 3, 4, 3, 3, 4, 2] = .ok m ∧
      readSymbol m (brNew [1]) = .ok (1, st') :=
  from_lengths_read_symbol_roundtrip (by decide) (by decide) (by decide) (by decide)
    (by decide) (by decide)

set_option maxRecDepth 100000 in
/-- C4, evaluation at the failing input.  RFC 1951 (and the claim) make
a leading symbol 16 invalid — there is no previous length to repeat —
but `decode_litlen_distance_trees` substitutes 0 via
`last().copied().unwrap_or_default()` and decodes the block without an
error, returning 257 zero lengths and one zero distance length. -/
theorem decode_trees_no_previous_length_eval :
    (decodeTokenLengths (brNew c4Input)).map (fun r => (r.1, r.2.1))
      = .ok (List.replicate 257 0, [0]) := by decide

set_option maxRecDepth 100000 in
/-- C1, evaluation.  The member without optional fields decompresses to
`hi`; the equally well-formed member that adds FNAME and FHCRC (the
reference producer value, accepted by zlib and the `gzip` tool) is
rejected: `read_string_until_null` keeps the 0x00 terminator inside the
recorded name, and `MemberHeader::crc16` appends a second terminator
when hashing, so the recomputed header CRC-16 never matches. -/
theorem decompress_header_crc16_eval :
    decompress memberPlain = .ok [104, 105] ∧
    decompress memberWithHeaderCrc = .error "header crc16 check failed" := by decide

/-- C7, evaluation at the failing input.  The stream ends immediately
after a 10-byte header whose FEXTRA bit is set; the claim requires an
UnexpectedEof-style error, but `read_extra`'s `.ok()?` converts the
short read into `None`, and `parse_header` records `extra = none` and
succeeds, continuing as if the field were absent. -/
theorem parse_header_swallows_extra_eof :
    parseHeader [31, 139, 8, 4, 0, 0, 0, 0, 0, 3] [] =
      .ok ({ compressionMethod := 8, modificationTime := 0, extra := none, name := none,
             comment := none, extraFlags := 0, os := 3, hasCrc := false, isText := false }, []) := by
  decide

/-- C9, evaluation at the failing input.  With FNAME set and the name
bytes `61 00`, the claim says the recorded name is `[0x61]` (terminator
excluded); the code records `[0x61, 0x00]`, terminator included. -/
theorem parse_header_name_keeps_terminator :
    (parseHeader [31, 139, 8, 8, 0, 0, 0, 0, 0, 3] [97, 0, 1, 2, 0, 253, 255]).map
        (fun p => p.1.name) = .ok (some [97, 0]) ∧
    (parseHeader [31, 139, 8, 8, 0, 0, 0, 0, 0, 3] [97, 0, 1, 2, 0, 253, 255]).map
        (fun p => p.1.name) ≠ .ok (some [97]) := by decide

end Gzip
